import Mathlib

/-!
# Malaen shellcode compiler: embedding of `compiler.go`

The assembler of `src/compiler.go` is embedded as pure functions.

* A Go string is the list of its characters (`Str`): texts are taken to be
  valid UTF-8.  `int` is the 64-bit `int` of the usual platforms.
* A Go `map[string]T` is an association list with pairwise distinct keys; an
  assignment `m[k] = v` replaces the entry of `k` or adds one.  The order of
  the list carries no meaning for lookups.  A `range` loop over a map visits
  every entry once in an order Go leaves unspecified: the loop of
  `CompileShellcode` therefore takes the visiting order as an argument
  (`rangeOrder`), which may be any rearrangement of the entries.
* A run-time panic (index out of range) and a returned `error` are the two
  kinds of `Failure`; fallible functions return `Except Failure _`.
* `CompileShellcode` is followed up to the call of `encodeShellcode`: its
  result is the `[]any` program list handed to the gob encoder.
-/

namespace Compiler

/-! ## Strings -/

/-- Go string, as the list of its characters. -/
abbrev Str := List Char

/-- Go `strings.HasPrefix`. -/
def HasPrefix (s pre : Str) : Bool :=
  match pre, s with
  | [], _ => true
  | _ :: _, [] => false
  | p :: ps, c :: cs => p == c && HasPrefix cs ps

/-- Go `strings.HasSuffix`. -/
def HasSuffix (s suf : Str) : Bool :=
  HasPrefix s.reverse suf.reverse

/-- Go `strings.TrimSuffix`: one trailing occurrence of `suf` is removed. -/
def TrimSuffix (s suf : Str) : Str :=
  if HasSuffix s suf then s.take (s.length - suf.length) else s

/-- Go `strings.Split` for a separator of one character (every separator of
the source is one: a space, `=`, `+`, a newline).  The result is never empty:
a string without separator gives the one-element list of itself. -/
def Split : Str → Char → List Str
  | [], _ => [[]]
  | c :: cs, sep =>
    if c = sep then [] :: Split cs sep
    else
      match Split cs sep with
      | [] => [[c]]
      | p :: ps => (c :: p) :: ps

/-- Go `strings.Contains` for a substring of one character. -/
def Contains (s : Str) (c : Char) : Bool :=
  s.any (fun x => x == c)

/-- Go `unicode.IsSpace`. -/
def IsSpace (c : Char) : Bool :=
  let n := c.toNat
  n == 0x09 || n == 0x0A || n == 0x0B || n == 0x0C || n == 0x0D || n == 0x20
    || n == 0x85 || n == 0xA0 || n == 0x1680 || (0x2000 ≤ n && n ≤ 0x200A)
    || n == 0x2028 || n == 0x2029 || n == 0x202F || n == 0x205F || n == 0x3000

/-- Go `strings.TrimSpace`: leading and trailing white space removed. -/
def TrimSpace (s : Str) : Str :=
  ((s.dropWhile IsSpace).reverse.dropWhile IsSpace).reverse

/-! ### `strconv.Atoi` (64-bit `int`) -/

/-- Outcome of the digit loop of `strconv.ParseUint(s, 10, 64)`. -/
inductive UintResult
  | value (n : Nat)
  | syntaxErr
  | rangeErr
  deriving DecidableEq, Repr

/-- Digit loop of `strconv.ParseUint` in base 10 with 64 bits: `n` is the
value read so far.  A character that is no decimal digit is a syntax error;
an overflow is reported as soon as it happens, before later characters are
looked at. -/
def parseUintLoop : Str → Nat → UintResult
  | [], n => .value n
  | c :: cs, n =>
    if '0' ≤ c ∧ c ≤ '9' then
      if n ≥ (2 ^ 64 - 1) / 10 + 1 then .rangeErr
      else
        let n1 := n * 10 + (c.toNat - '0'.toNat)
        if n1 > 2 ^ 64 - 1 then .rangeErr else parseUintLoop cs n1
    else .syntaxErr

/-- Go `strconv.ParseUint(s, 10, 64)`. -/
def ParseUint (s : Str) : UintResult :=
  match s with
  | [] => .syntaxErr
  | _ :: _ => parseUintLoop s 0

/-- Go `strconv.Atoi` on a 64-bit platform: the returned integer and whether
the returned error is non-nil.  A syntax error returns 0; a value out of range
returns the nearest bound of `int64` together with the error. -/
def Atoi (s : Str) : Int × Bool :=
  match s with
  | [] => (0, true)
  | c :: cs =>
    let neg := c = '-'
    let digits := if c = '+' ∨ c = '-' then cs else s
    match ParseUint digits with
    | .syntaxErr => (0, true)
    | .rangeErr => if neg then (-(2 ^ 63 : Int), true) else ((2 ^ 63 : Int) - 1, true)
    | .value un =>
      if ¬ neg ∧ un ≥ 2 ^ 63 then ((2 ^ 63 : Int) - 1, true)
      else if neg ∧ un > 2 ^ 63 then (-(2 ^ 63 : Int), true)
      else (if neg then -(un : Int) else (un : Int), false)

/-- Two's-complement wrap of an `int64` result. -/
def wrapInt64 (z : Int) : Int :=
  (z + 2 ^ 63) % 2 ^ 64 - 2 ^ 63

/-! ## Maps -/

/-- Go map read `m[k]` with the comma-ok form: the value when `k` is a key. -/
def mapGet? {β : Type} : List (Str × β) → Str → Option β
  | [], _ => none
  | (k', v) :: rest, k => if k' = k then some v else mapGet? rest k

/-- Go map read `m[k]`: the value of `k`, the zero value of the value type
when `k` is no key. -/
def mapRead {β : Type} (zero : β) (m : List (Str × β)) (k : Str) : β :=
  match mapGet? m k with
  | some v => v
  | none => zero

/-- Go map assignment `m[k] = v`. -/
def mapSet {β : Type} : List (Str × β) → Str → β → List (Str × β)
  | [], k, v => [(k, v)]
  | (k', v') :: rest, k, v =>
    if k' = k then (k, v) :: rest else (k', v') :: mapSet rest k v

/-! ## Symbols -/

/-- A symbol of the source text: `rawSymbol` of the source. -/
structure rawSymbol where
  Address : Int
  Content : List Str
  deriving DecidableEq, Repr

/-- The zero value of `rawSymbol`: address 0 and no content. -/
def zeroSymbol : rawSymbol :=
  { Address := 0, Content := [] }

/-- A `map[string]rawSymbol`. -/
abbrev SymTable := List (Str × rawSymbol)

/-- How a call can fail: a run-time panic or a returned `error`. -/
inductive Failure
  /-- `os.ReadFile` returned an error. -/
  | readError
  /-- Run-time panic: index out of range. -/
  | indexOutOfRange
  /-- A returned `errors.New(msg)`. -/
  | error (msg : String)
  /-- The loop model ran out of fuel (never happens, see
  `registerAll_ne_outOfFuel` and `extractRawSymbols_eq_registerAll`). -/
  | outOfFuel
  deriving DecidableEq, Repr

/-- The generic `filter` of the source. -/
def filter {α : Type} (ss : List α) (test : α → Bool) : List α :=
  match ss with
  | [] => []
  | s :: rest => if test s then s :: filter rest test else filter rest test

/-- The generic `Map` of the source. -/
def Map {α : Type} (ss : List α) (toApply : α → α) : List α :=
  match ss with
  | [] => []
  | s :: rest => toApply s :: Map rest toApply

/-- `getFileLines`: `file` is what `os.ReadFile` gave (`none`: an error); the
text is split at newlines and empty lines are dropped. -/
def getFileLines (file : Option Str) : Except Failure (List Str) :=
  match file with
  | none => .error .readError
  | some text => .ok (filter (Split text '\n') (fun line => line.length != 0))

/-- The test of `extractRawSymbol`: the line starts with two spaces or a tab. -/
def isBodyLine (line : Str) : Bool :=
  HasPrefix line "  ".toList || HasPrefix line "\t".toList

/-- `extractRawSymbol`: the leading lines that start with two spaces or a
tab, up to the first line that does not. -/
def extractRawSymbol : List Str → List Str
  | [] => []
  | line :: rest => if isBodyLine line then line :: extractRawSymbol rest else []

/-- The tables and the address counter of the loop of `extractRawSymbols`. -/
structure Tables where
  sections : SymTable
  functions : SymTable
  funcIdx : Nat
  deriving DecidableEq, Repr

/-- Lines 106-110 of `extractRawSymbols`: a symbol whose name starts with `_`
is stored in the function table at the current counter, which then grows by
the length of the body. -/
def registerFunction (t : Tables) (symName : Str) (symContent : List Str) : Tables :=
  if HasPrefix symName "_".toList then
    { t with
      functions := mapSet t.functions (TrimSuffix symName ":".toList)
        { Content := symContent, Address := (t.funcIdx : Int) }
      funcIdx := t.funcIdx + symContent.length }
  else t

/-- Lines 100-110 of `extractRawSymbols`: the classification of one symbol.
A name starting with `section` is replaced by its second space-separated
field (a panic when there is none) without one trailing colon and stored in
the section table; the function test of line 106 then reads the replaced
name. -/
def registerSymbol (t : Tables) (symName : Str) (symContent : List Str) :
    Except Failure Tables :=
  if HasPrefix symName "section".toList then
    match (Split symName ' ')[1]? with
    | none => .error .indexOutOfRange
    | some field =>
      let symName := TrimSuffix field ":".toList
      .ok (registerFunction
        { t with
          sections := mapSet t.sections symName
            { Content := symContent, Address := (t.sections.length : Int) } }
        symName symContent)
  else .ok (registerFunction t symName symContent)

/-- The loop of `extractRawSymbols` (lines 91-114) from index `idx` with the
tables `t`; `fuel` bounds the number of iterations.  `fileLines[idx]` is read
under the loop test `idx < len(fileLines)`, so the default of `getD` is never
used; `funcIdx` stays below the number of lines, far from the range of `int`. -/
def extractLoop (fileLines : List Str) : Nat → Nat → Tables → Except Failure Tables
  | 0, _, _ => .error .outOfFuel
  | fuel + 1, idx, t =>
    if idx < fileLines.length then
      let symName := fileLines.getD idx []
      let symContent := Map (extractRawSymbol (fileLines.drop (idx + 1))) TrimSpace
      match registerSymbol t symName symContent with
      | .error e => .error e
      | .ok t' => extractLoop fileLines fuel (idx + 1 + symContent.length) t'
    else .ok t

/-- `extractRawSymbols`: the section table and the function table. -/
def extractRawSymbols (fileLines : List Str) : Except Failure (SymTable × SymTable) :=
  match extractLoop fileLines (fileLines.length + 1) 0 ⟨[], [], 0⟩ with
  | .error e => .error e
  | .ok t => .ok (t.sections, t.functions)

/-! ## Assembling -/

/-- `parseDataSection`, the loop with the map built so far: each line is
split at `=`; field 0 is the key and field 1 the value (a string).  A line
without `=` has no field 1: index out of range. -/
def parseDataLoop : List Str → List (Str × Str) → Except Failure (List (Str × Str))
  | [], ret => .ok ret
  | line :: rest, ret =>
    let lineSplited := Split line '='
    match lineSplited[1]? with
    | none => .error .indexOutOfRange
    | some value => parseDataLoop rest (mapSet ret (lineSplited.headD []) value)

/-- `parseDataSection`: the data values of the body of `.data`. -/
def parseDataSection (content : List Str) : Except Failure (List (Str × Str)) :=
  parseDataLoop content []

/-- An element of an instruction (a `[]any`): an `int64`, a `string`, or the
nil interface value that reading an absent key of `dataValues` gives. -/
inductive Operand
  | int (n : Int)
  | str (s : Str)
  | nil
  deriving DecidableEq, Repr

/-- An element of the program list `shellcode` (a `[]any`): the `int64` header
or one instruction. -/
inductive Item
  | int64 (n : Int)
  | slice (instruction : List Operand)
  deriving DecidableEq, Repr

/-- Lines 163-183 of `CompileShellcode`, the body of the operand loop:
`instruction` after the operand token `operande` has been handled.
`dataValues` is the map of `.data` (empty when there is no such section: a nil
map reads like an empty one).  The indices 0 and 1 of `opSplited` exist since
the token contains `+`. -/
def resolveOperand (registers : List (Str × Int)) (dataValues : List (Str × Str))
    (rawFunctions : SymTable) (instruction : List Operand) (operande : Str) :
    List Operand :=
  match mapGet? registers operande with
  | some reg => instruction ++ [.int reg]
  | none =>
    if HasPrefix operande "$".toList then
      match mapGet? dataValues (operande.drop 1) with
      | some value => instruction ++ [.str value]
      | none => instruction ++ [.nil]
    else if HasPrefix operande "_".toList then
      if Contains operande '+' then
        let opSplited := Split operande '+'
        let addrOfFunc := (mapRead zeroSymbol rawFunctions (opSplited.headD [])).Address
        let offset := (Atoi (opSplited.getD 1 [])).1
        instruction ++ [.int (wrapInt64 (addrOfFunc + offset))]
      else instruction
    else
      match Atoi operande with
      | (i, false) => instruction ++ [.int i]
      | (_, true) => instruction ++ [.str operande]

/-- The operand loop of lines 161-185 over the tokens after the mnemonic. -/
def resolveOperands (registers : List (Str × Int)) (dataValues : List (Str × Str))
    (rawFunctions : SymTable) : List Operand → List Str → List Operand
  | instruction, [] => instruction
  | instruction, operande :: rest =>
    resolveOperands registers dataValues rawFunctions
      (resolveOperand registers dataValues rawFunctions instruction operande) rest

/-- Lines 154-186 of `CompileShellcode`: the instruction of one body line.
The line is split at single spaces; field 0 is looked up in `instructions`
(an absent key reads as the zero value 0) and the other fields are the
operand tokens. -/
def compileInstruction (instructions registers : List (Str × Int))
    (dataValues : List (Str × Str)) (rawFunctions : SymTable) (instr : Str) :
    List Operand :=
  let instrSplited := Split instr ' '
  let opcode := mapRead 0 instructions (instrSplited.headD [])
  resolveOperands registers dataValues rawFunctions [.int opcode] instrSplited.tail

/-- Lines 152-187 of `CompileShellcode`: `compiledInstructions` of one
function, one instruction per body line, in the order of the lines. -/
def compileFunction (instructions registers : List (Str × Int))
    (dataValues : List (Str × Str)) (rawFunctions : SymTable) :
    List Str → List Item
  | [] => []
  | instr :: rest =>
    .slice (compileInstruction instructions registers dataValues rawFunctions instr)
      :: compileFunction instructions registers dataValues rawFunctions rest

/-- The `range rawFunctions` loop of lines 150-189: `shellcode` after the
entries `visit` have been visited in this order. -/
def flattenFunctions (instructions registers : List (Str × Int))
    (dataValues : List (Str × Str)) (rawFunctions : SymTable) :
    List Item → SymTable → List Item
  | shellcode, [] => shellcode
  | shellcode, (_, content) :: rest =>
    flattenFunctions instructions registers dataValues rawFunctions
      (shellcode ++
        compileFunction instructions registers dataValues rawFunctions content.Content)
      rest

/-- Lines 141-145 of `CompileShellcode`: the data values, an empty map when
there is no `.data` section. -/
def dataValuesOf (rawSections : SymTable) : Except Failure (List (Str × Str)) :=
  match mapGet? rawSections ".data".toList with
  | some dataSymbol => parseDataSection dataSymbol.Content
  | none => .ok []

/-- Lines 130-189 of `CompileShellcode`, after the file has been read: the
program list handed to `encodeShellcode`.  `rangeOrder` gives the order in
which `range rawFunctions` visits the entries of the function table.  Reading
`Content[0]` of the `.text` section panics when the section is absent (the
zero `rawSymbol` has no content) or has an empty body. -/
def assembleShellcode (fileLines : List Str) (instructions registers : List (Str × Int))
    (rangeOrder : SymTable → SymTable) : Except Failure (List Item) :=
  match extractRawSymbols fileLines with
  | .error e => .error e
  | .ok (rawSections, rawFunctions) =>
    match (mapRead zeroSymbol rawSections ".text".toList).Content with
    | [] => .error .indexOutOfRange
    | entryPointName :: _ =>
      match mapGet? rawFunctions entryPointName with
      | none => .error (.error "compiler: No entrypoint found")
      | some entry =>
        match dataValuesOf rawSections with
        | .error e => .error e
        | .ok dataValues =>
          .ok (flattenFunctions instructions registers dataValues rawFunctions
            [.int64 entry.Address] (rangeOrder rawFunctions))

/-- `CompileShellcode` up to the call of `encodeShellcode`: `file` is what
`os.ReadFile` gave for `shellcodeFileName`. -/
def CompileShellcode (file : Option Str) (instructions registers : List (Str × Int))
    (rangeOrder : SymTable → SymTable) : Except Failure (List Item) :=
  match getFileLines file with
  | .error e => .error e
  | .ok fileLines => assembleShellcode fileLines instructions registers rangeOrder

/-- A visiting order that `range` over a map may take: every entry once. -/
def IsRangeOrder (rangeOrder : SymTable → SymTable) : Prop :=
  ∀ m : SymTable, (rangeOrder m).Perm m

deriving instance DecidableEq for Except

/-- Address consistency of a function table against an instruction stream
(the program list without its header): for every entry with a non-empty body,
the stream holds at index `Address` the instruction assembled from the first
body line of the entry. -/
def AddressConsistent (instructions registers : List (Str × Int))
    (dataValues : List (Str × Str)) (rawFunctions : SymTable) (stream : List Item) : Prop :=
  ∀ e ∈ rawFunctions, ∀ line ∈ e.2.Content.head?,
    stream[e.2.Address.toNat]?
      = some (.slice (compileInstruction instructions registers dataValues rawFunctions line))

/-- The loop of `extractRawSymbols` as in `extractLoop`, with a record of its
iterations: `seen` holds, in order, the name line and the body (as
`extractRawSymbol` returned it) of every iteration started so far.  The result
is the record at the end of the loop together with what `extractLoop`
returns. -/
def extractLoopTrace (fileLines : List Str) :
    Nat → Nat → Tables → List (Str × List Str) →
      List (Str × List Str) × Except Failure Tables
  | 0, _, _, seen => (seen, .error .outOfFuel)
  | fuel + 1, idx, t, seen =>
    if idx < fileLines.length then
      let symName := fileLines.getD idx []
      let body := extractRawSymbol (fileLines.drop (idx + 1))
      let symContent := Map body TrimSpace
      match registerSymbol t symName symContent with
      | .error e => (seen ++ [(symName, body)], .error e)
      | .ok t' =>
        extractLoopTrace fileLines fuel (idx + 1 + symContent.length) t'
          (seen ++ [(symName, body)])
    else (seen, .ok t)

/-- The iterations of the loop of `extractRawSymbols` on a whole text and its
outcome. -/
def extractTrace (fileLines : List Str) : List (Str × List Str) × Except Failure Tables :=
  extractLoopTrace fileLines (fileLines.length + 1) 0 ⟨[], [], 0⟩ []

/-! ## The blocks of the scan -/

/-- The (name line, body) pairs that the index arithmetic of the loop of
`extractRawSymbols` cuts out of `lines`, the lines from the current index on:
the name line is the first line, the body what `extractRawSymbol` returns for
the lines after it, and the scan goes on behind the body.  `fuel` bounds the
number of blocks. -/
def scanBlocks : Nat → List Str → List (Str × List Str)
  | 0, _ => []
  | _ + 1, [] => []
  | fuel + 1, symName :: rest =>
    (symName, extractRawSymbol rest)
      :: scanBlocks fuel (rest.drop (extractRawSymbol rest).length)

/-- The blocks of a whole text. -/
def blocksOf (fileLines : List Str) : List (Str × List Str) :=
  scanBlocks (fileLines.length + 1) fileLines

/-- The classification of lines 95-110 applied to blocks in order, each body
trimmed line by line, stopping at the first panic. -/
def registerAll : Tables → List (Str × List Str) → Except Failure Tables
  | t, [] => .ok t
  | t, (symName, body) :: rest =>
    match registerSymbol t symName (Map body TrimSpace) with
    | .error e => .error e
    | .ok t' => registerAll t' rest

/-- The two tables that `extractRawSymbols` returns from a final state. -/
def tablesOf (r : Except Failure Tables) : Except Failure (SymTable × SymTable) :=
  match r with
  | .error e => .error e
  | .ok t => .ok (t.sections, t.functions)

/-- The lines of a list of blocks, in order. -/
def blockLines : List (Str × List Str) → List Str
  | [] => []
  | (symName, body) :: rest => symName :: (body ++ blockLines rest)

/-- The key under which the test of line 106 stores a symbol in the function
table: the name that reaches line 106 (for a name line starting with
`section`, its second field without one trailing colon) starts with `_`; the
key is that name without one trailing colon. -/
def functionKey (symName : Str) : Option Str :=
  if HasPrefix symName "section".toList then
    match (Split symName ' ')[1]? with
    | none => none
    | some field =>
      if HasPrefix (TrimSuffix field ":".toList) "_".toList then
        some (TrimSuffix (TrimSuffix field ":".toList) ":".toList)
      else none
  else if HasPrefix symName "_".toList then some (TrimSuffix symName ":".toList)
  else none

/-- The function-classified blocks in source order: key and trimmed body. -/
def functionBlocks : List (Str × List Str) → List (Str × List Str)
  | [] => []
  | (symName, body) :: rest =>
    match functionKey symName with
    | some key => (key, Map body TrimSpace) :: functionBlocks rest
    | none => functionBlocks rest

/-- Sum of the body lengths of a list of function blocks. -/
def bodyLengths : List (Str × List Str) → Nat
  | [] => 0
  | (_, body) :: rest => body.length + bodyLengths rest

/-- Function blocks with running addresses: each gets the counter `start`
grown by the body lengths of the blocks before it. -/
def prefixAddresses : Nat → List (Str × List Str) → SymTable
  | _, [] => []
  | start, (key, body) :: rest =>
    (key, { Address := (start : Int), Content := body })
      :: prefixAddresses (start + body.length) rest

/-! ## Example inputs -/

/-- The mnemonic map of the example scenario. -/
def exampleInstructions : List (Str × Int) :=
  [("mov".toList, 1), ("add".toList, 2)]

/-- The register map of the example scenario. -/
def exampleRegisters : List (Str × Int) :=
  [("r0".toList, 0), ("r1".toList, 1)]

/-- The seven source lines of the example scenario, as a file. -/
def exampleSource : Str :=
  "section .text:\n  _main\nsection .data:\n  x=5\n_main:\n  mov r0 $x\n  add r0 r1\n".toList

/-- A text with two functions of one instruction each. -/
def twoFunctions : Str :=
  "section .text:\n  _a\n_a:\n  mov r0 1\n_b:\n  add r0 r1\n".toList

/-- A text that defines the function `_a` twice. -/
def repeatedName : Str :=
  "section .text:\n  _a\n_a:\n  mov r0 1\n_a:\n  add r0 r1\n".toList

/-- A text whose function uses a mnemonic that `exampleInstructions` lacks. -/
def unknownMnemonic : Str :=
  "section .text:\n  _main\n_main:\n  jmp r0\n".toList

/-- A text whose function refers to a data value that `.data` lacks. -/
def undefinedData : Str :=
  "section .text:\n  _main\nsection .data:\n  x=5\n_main:\n  mov r0 $y\n".toList

/-- A register map whose names look like a literal, a data reference and a
function reference. -/
def oddRegisters : List (Str × Int) :=
  [("7".toList, 3), ("$x".toList, 4), ("_main+1".toList, 5)]

/-- A text whose section is named `_x`, followed by the function `_main`. -/
def sectionUnderscore : List Str :=
  ["section _x:".toList, "  a=1".toList, "_main:".toList, "  mov r0 r1".toList]

/-- A text without `.text` section. -/
def noTextSection : Str :=
  "_main:\n  mov r0 r1\n".toList

/-- A text whose `.text` section has an empty body. -/
def emptyTextSection : Str :=
  "section .text:\n_main:\n  mov r0 r1\n".toList

/-- A text whose `.data` section has a line without `=`. -/
def malformedData : Str :=
  "section .text:\n  _main\nsection .data:\n  x\n_main:\n  mov r0 r1\n".toList

/-- A text whose second function is named `_a+b` and refers to itself with
the offset 3. -/
def plusInName : Str :=
  "section .text:\n  _a\n_a:\n  mov r0 r1\n_a+b:\n  mov r0 _a+b+3\n".toList

/-- A text whose second function `_b`, at address 1, refers to itself with
the largest offset of `int64`. -/
def largeOffset : Str :=
  "section .text:\n  _a\n_a:\n  mov r0 r1\n_b:\n  mov r0 _b+9223372036854775807\n".toList

/-- A text whose `.text` section names `_x`, which is the name of a section
and of no function. -/
def sectionEntrypoint : Str :=
  "section .text:\n  _x\nsection _x:\n  mov r0 r1\n".toList

/-- A text with a section `_x` and, after it, its only function, also `_x`. -/
def sectionShadowsFunction : Str :=
  "section .text:\n  _x\nsection _x:\n  a=1\n_x:\n  mov r0 r1\n".toList

/-- A text with a section `_s` and, after it, its only function `_f`. -/
def sectionBeforeFunction : Str :=
  "section .text:\n  _f\nsection _s:\n  a=1\n_f:\n  mov r0 r1\n".toList

/-- Three lines, the first of which starts with `section` and has no space. -/
def sectionWithoutSpace : List Str :=
  ["sectionfoo".toList, "_main:".toList, "  mov r0 r1".toList]

/-! ## Notions of the claims -/

/-- The text of a `.data` line before its first `=`. -/
def dataKey (line : Str) : Str :=
  line.takeWhile (fun c => c != '=')

/-- The text of a `.data` line after its first `=`, up to the next `=` or
the end of the line. -/
def dataValue (line : Str) : Str :=
  ((line.dropWhile (fun c => c != '=')).drop 1).takeWhile (fun c => c != '=')

/-- The whole text of a `.data` line after its first `=`. -/
def dataRest (line : Str) : Str :=
  (line.dropWhile (fun c => c != '=')).drop 1

/-- The last line of a `.data` body whose key is `k`. -/
def lastDataLine (content : List Str) (k : Str) : Option Str :=
  content.reverse.find? (fun line => dataKey line == k)

/-- Tokens joined by one space each. -/
def joinFields : List Str → Str
  | [] => []
  | [tok] => tok
  | tok :: rest => tok ++ ' ' :: joinFields rest

/-- A bare function reference: a token that is no register name, starts with
`_` and contains no `+`. -/
def isBareReference (registers : List (Str × Int)) (tok : Str) : Bool :=
  (mapGet? registers tok).isNone && HasPrefix tok "_".toList && !Contains tok '+'

/-- The instructions of the function blocks in the given order, one per body
line. -/
def streamOf (instructions registers : List (Str × Int)) (dataValues : List (Str × Str))
    (rawFunctions : SymTable) : List (Str × List Str) → List Item
  | [] => []
  | (_, body) :: rest =>
    compileFunction instructions registers dataValues rawFunctions body
      ++ streamOf instructions registers dataValues rawFunctions rest

/-! ## Lemmas -/

theorem Split_ne_nil (s : Str) (sep : Char) : Split s sep ≠ [] := by
  cases s with
  | nil => simp [Split]
  | cons c cs =>
    unfold Split
    split
    · simp
    · split <;> simp

theorem Split_length_of_Contains (s : Str) (sep : Char) (h : Contains s sep = true) :
    2 ≤ (Split s sep).length := by
  induction s with
  | nil => simp [Contains] at h
  | cons c cs ih =>
    unfold Split
    by_cases hc : c = sep
    · rw [if_pos hc]
      have := List.length_pos.mpr (Split_ne_nil cs sep)
      simp only [List.length_cons]
      omega
    · rw [if_neg hc]
      have hcs : Contains cs sep = true := by
        simp only [Contains, List.any_cons, Bool.or_eq_true, beq_iff_eq] at h
        rcases h with h | h
        · exact absurd h hc
        · exact h
      have := ih hcs
      split
      · rename_i hnil
        rw [hnil] at this
        simp at this
      · rename_i p ps hp
        rw [hp] at this
        simpa using this

theorem flattenFunctions_append (I R : List (Str × Int)) (D : List (Str × Str))
    (F : SymTable) (shellcode : List Item) (visit : SymTable) :
    flattenFunctions I R D F shellcode visit
      = shellcode ++ flattenFunctions I R D F [] visit := by
  induction visit generalizing shellcode with
  | nil => simp [flattenFunctions]
  | cons e rest ih =>
    obtain ⟨k, c⟩ := e
    simp only [flattenFunctions]
    rw [ih, ih ([] ++ _)]
    simp

theorem resolveOperand_append (R : List (Str × Int)) (D : List (Str × Str))
    (F : SymTable) (instruction : List Operand) (tok : Str) :
    resolveOperand R D F instruction tok
      = instruction ++ resolveOperand R D F [] tok := by
  unfold resolveOperand
  repeat' split
  all_goals simp

theorem resolveOperands_append (R : List (Str × Int)) (D : List (Str × Str))
    (F : SymTable) (instruction : List Operand) (toks : List Str) :
    resolveOperands R D F instruction toks
      = instruction ++ resolveOperands R D F [] toks := by
  induction toks generalizing instruction with
  | nil => simp [resolveOperands]
  | cons tok rest ih =>
    simp only [resolveOperands]
    rw [ih, ih (resolveOperand R D F [] tok), resolveOperand_append]
    simp

theorem resolveOperands_split (R : List (Str × Int)) (D : List (Str × Str))
    (F : SymTable) (instruction : List Operand) (pre post : List Str) (tok : Str) :
    resolveOperands R D F instruction (pre ++ tok :: post)
      = resolveOperands R D F instruction pre
          ++ resolveOperand R D F [] tok ++ resolveOperands R D F [] post := by
  induction pre generalizing instruction with
  | nil =>
    simp only [List.nil_append, resolveOperands]
    rw [resolveOperands_append, resolveOperand_append]
  | cons p pre ih =>
    show resolveOperands R D F (resolveOperand R D F instruction p) (pre ++ tok :: post) = _
    rw [ih]
    simp only [resolveOperands]

theorem assembleShellcode_ok (fileLines : List Str) (I R : List (Str × Int))
    (rangeOrder : SymTable → SymTable) (rawSections rawFunctions : SymTable)
    (entryPointName : Str) (rest : List Str) (entry : rawSymbol) (D : List (Str × Str))
    (hx : extractRawSymbols fileLines = .ok (rawSections, rawFunctions))
    (hc : (mapRead zeroSymbol rawSections ".text".toList).Content = entryPointName :: rest)
    (he : mapGet? rawFunctions entryPointName = some entry)
    (hd : dataValuesOf rawSections = .ok D) :
    assembleShellcode fileLines I R rangeOrder
      = .ok (.int64 entry.Address
          :: flattenFunctions I R D rawFunctions [] (rangeOrder rawFunctions)) := by
  unfold assembleShellcode
  rw [hx]
  simp only [hc, he, hd]
  rw [flattenFunctions_append]
  rfl

theorem parseDataLoop_error (content : List Str) (ret : List (Str × Str)) (e : Failure)
    (h : parseDataLoop content ret = .error e) : e = .indexOutOfRange := by
  induction content generalizing ret with
  | nil => simp [parseDataLoop] at h
  | cons line rest ih =>
    simp only [parseDataLoop] at h
    split at h
    · cases h; rfl
    · exact ih _ h

theorem dataValuesOf_error (rawSections : SymTable) (e : Failure)
    (h : dataValuesOf rawSections = .error e) : e = .indexOutOfRange := by
  unfold dataValuesOf at h
  split at h
  · exact parseDataLoop_error _ _ e h
  · cases h

theorem CompileShellcode_error_iff (file : Option Str) (I I' R : List (Str × Int))
    (rangeOrder : SymTable → SymTable) (e : Failure) :
    CompileShellcode file I R rangeOrder = .error e
      ↔ CompileShellcode file I' R rangeOrder = .error e := by
  unfold CompileShellcode
  cases getFileLines file with
  | error e' => simp
  | ok fileLines =>
    simp only
    unfold assembleShellcode
    cases extractRawSymbols fileLines with
    | error e' => simp
    | ok tabs =>
      obtain ⟨rawSections, rawFunctions⟩ := tabs
      simp only
      cases (mapRead zeroSymbol rawSections ".text".toList).Content with
      | nil => simp
      | cons entryPointName rest =>
        simp only
        cases mapGet? rawFunctions entryPointName with
        | none => simp
        | some entry =>
          simp only
          cases dataValuesOf rawSections with
          | error e' => simp
          | ok D => simp

theorem isRangeOrder_id : IsRangeOrder id :=
  fun m => List.Perm.refl m

theorem isRangeOrder_reverse : IsRangeOrder List.reverse :=
  fun m => List.reverse_perm m

/-! ## Address consistency and determinism -/

/-- C1, evaluated on the code: address consistency fails.  For the text
`twoFunctions` the function table holds `_a` at address 0 and `_b` at address
1; when the flattening loop visits `_b` before `_a` (a rearrangement of the
table) the instruction stream holds at index 0 the instruction of `_b`, not
the instruction `[1, 0, 1]` of the first body line `mov r0 1` of `_a`: the
table and the stream are not address consistent.  For the text
`repeatedName` the one remaining entry `_a` has address 1 while the stream
has one element only, whatever the visiting order. -/
theorem C1_address_is_not_stream_index :
    IsRangeOrder List.reverse
    ∧ (getFileLines (some twoFunctions)).bind extractRawSymbols
        = .ok ([(".text".toList, ⟨0, ["_a".toList]⟩)],
            [("_a".toList, ⟨0, ["mov r0 1".toList]⟩),
             ("_b".toList, ⟨1, ["add r0 r1".toList]⟩)])
    ∧ CompileShellcode (some twoFunctions) exampleInstructions exampleRegisters List.reverse
        = .ok [.int64 0, .slice [.int 2, .int 0, .int 1], .slice [.int 1, .int 0, .int 1]]
    ∧ ¬ AddressConsistent exampleInstructions exampleRegisters []
          [("_a".toList, ⟨0, ["mov r0 1".toList]⟩),
           ("_b".toList, ⟨1, ["add r0 r1".toList]⟩)]
          [.slice [.int 2, .int 0, .int 1], .slice [.int 1, .int 0, .int 1]]
    ∧ (getFileLines (some repeatedName)).bind extractRawSymbols
        = .ok ([(".text".toList, ⟨0, ["_a".toList]⟩)],
            [("_a".toList, ⟨1, ["add r0 r1".toList]⟩)])
    ∧ CompileShellcode (some repeatedName) exampleInstructions exampleRegisters id
        = .ok [.int64 1, .slice [.int 2, .int 0, .int 1]]
    ∧ ¬ AddressConsistent exampleInstructions exampleRegisters []
          [("_a".toList, ⟨1, ["add r0 r1".toList]⟩)]
          [.slice [.int 2, .int 0, .int 1]] := by
  refine ⟨isRangeOrder_reverse, by decide, by decide, ?_, by decide, by decide, ?_⟩
  · intro h
    have h0 := h ("_a".toList, ⟨0, ["mov r0 1".toList]⟩) (List.mem_cons_self _ _)
      "mov r0 1".toList rfl
    revert h0
    decide
  · intro h
    have h0 := h ("_a".toList, ⟨1, ["add r0 r1".toList]⟩) (List.mem_cons_self _ _)
      "add r0 r1".toList rfl
    revert h0
    decide

/-- C2, evaluated on the code: the program depends on the order in which the
function table is visited.  On the text `twoFunctions`, with the same maps,
visiting `_a` then `_b` and visiting `_b` then `_a` (both rearrangements of
the table) give two different program lists. -/
theorem C2_program_depends_on_range_order :
    IsRangeOrder id ∧ IsRangeOrder List.reverse
    ∧ CompileShellcode (some twoFunctions) exampleInstructions exampleRegisters id
        = .ok [.int64 0, .slice [.int 1, .int 0, .int 1], .slice [.int 2, .int 0, .int 1]]
    ∧ CompileShellcode (some twoFunctions) exampleInstructions exampleRegisters List.reverse
        = .ok [.int64 0, .slice [.int 2, .int 0, .int 1], .slice [.int 1, .int 0, .int 1]]
    ∧ CompileShellcode (some twoFunctions) exampleInstructions exampleRegisters id
        ≠ CompileShellcode (some twoFunctions) exampleInstructions exampleRegisters
            List.reverse := by
  refine ⟨isRangeOrder_id, isRangeOrder_reverse, ?_, ?_, ?_⟩ <;> decide

/-! ## Entrypoint -/

/-- C3: whenever `CompileShellcode` hands a program list to the encoder, the
text has a `.text` section with a non-empty body, the first (trimmed) body
line of it is a key of the function table, and the first element of the
program list is the `Address` stored in the function table under that key;
this holds for every visiting order of the flattening loop. -/
theorem C3_header_is_entrypoint_address (file : Option Str)
    (instructions registers : List (Str × Int)) (rangeOrder : SymTable → SymTable)
    (shellcode : List Item)
    (h : CompileShellcode file instructions registers rangeOrder = .ok shellcode) :
    ∃ fileLines rawSections rawFunctions text entryPointName entry,
      getFileLines file = .ok fileLines
      ∧ extractRawSymbols fileLines = .ok (rawSections, rawFunctions)
      ∧ mapGet? rawSections ".text".toList = some text
      ∧ text.Content.head? = some entryPointName
      ∧ mapGet? rawFunctions entryPointName = some entry
      ∧ shellcode.head? = some (.int64 entry.Address) := by
  unfold CompileShellcode at h
  split at h
  · cases h
  · rename_i fileLines hl
    unfold assembleShellcode at h
    split at h
    · cases h
    · rename_i rawSections rawFunctions hx
      split at h
      · cases h
      · rename_i entryPointName rest hc
        split at h
        · cases h
        · rename_i entry he
          split at h
          · cases h
          · rename_i dataValues hd
            simp only [Except.ok.injEq] at h
            cases ht : mapGet? rawSections ".text".toList with
            | none => unfold mapRead at hc; rw [ht] at hc; cases hc
            | some text =>
              unfold mapRead at hc
              rw [ht] at hc
              refine ⟨fileLines, rawSections, rawFunctions, text, entryPointName, entry,
                hl, hx, ht, ?_, he, ?_⟩
              · rw [hc]; rfl
              · rw [← h, flattenFunctions_append]; rfl

/-- C3: the theorem applied to the example scenario. -/
theorem C3_header_is_entrypoint_address_witness :
    ∃ fileLines rawSections rawFunctions text entryPointName entry,
      getFileLines (some exampleSource) = .ok fileLines
      ∧ extractRawSymbols fileLines = .ok (rawSections, rawFunctions)
      ∧ mapGet? rawSections ".text".toList = some text
      ∧ text.Content.head? = some entryPointName
      ∧ mapGet? rawFunctions entryPointName = some entry
      ∧ [Item.int64 0, .slice [.int 1, .int 0, .str "5".toList],
          .slice [.int 2, .int 0, .int 1]].head? = some (.int64 entry.Address) :=
  C3_header_is_entrypoint_address (some exampleSource) exampleInstructions
    exampleRegisters id _ (by decide)

/-! ## The example scenario -/

/-- C4, as stated, fails: on the example scenario the program list is not the
header 0 followed by `[1, 0, 5]` with the integer 5 and `[2, 0, 1]`. -/
theorem C4_data_operand_is_not_the_integer :
    CompileShellcode (some exampleSource) exampleInstructions exampleRegisters id
      ≠ .ok [.int64 0, .slice [.int 1, .int 0, .int 5], .slice [.int 2, .int 0, .int 1]] := by
  decide

/-- C4, amended: on the example scenario, for every visiting order, the
program list is the header 0 followed by the two instructions `[1, 0, "5"]`
and `[2, 0, 1]` in this order: the data value of `x` is the string `5` that
`parseDataSection` stored, not an integer. -/
theorem C4_example_program (rangeOrder : SymTable → SymTable)
    (h : IsRangeOrder rangeOrder) :
    CompileShellcode (some exampleSource) exampleInstructions exampleRegisters rangeOrder
      = .ok [.int64 0, .slice [.int 1, .int 0, .str "5".toList],
          .slice [.int 2, .int 0, .int 1]] := by
  have hl : getFileLines (some exampleSource)
      = .ok ["section .text:".toList, "  _main".toList, "section .data:".toList,
          "  x=5".toList, "_main:".toList, "  mov r0 $x".toList, "  add r0 r1".toList] := by
    decide
  unfold CompileShellcode
  rw [hl]
  simp only
  rw [assembleShellcode_ok _ _ _ rangeOrder
    [(".text".toList, ⟨0, ["_main".toList]⟩), (".data".toList, ⟨1, ["x=5".toList]⟩)]
    [("_main".toList, ⟨0, ["mov r0 $x".toList, "add r0 r1".toList]⟩)]
    "_main".toList [] ⟨0, ["mov r0 $x".toList, "add r0 r1".toList]⟩
    [("x".toList, "5".toList)] (by decide) (by decide) (by decide) (by decide)]
  rw [List.perm_singleton.mp (h _)]
  decide

/-- C4: the amended theorem applied to the visiting order `id`. -/
theorem C4_example_program_witness :
    IsRangeOrder id
    ∧ CompileShellcode (some exampleSource) exampleInstructions exampleRegisters id
      = .ok [.int64 0, .slice [.int 1, .int 0, .str "5".toList],
          .slice [.int 2, .int 0, .int 1]] :=
  ⟨isRangeOrder_id, C4_example_program id isRangeOrder_id⟩

/-! ## Operands and mnemonics -/

/-- C5: a body line whose fields are the mnemonic, the tokens `pre`, a token
`tok` that is a key of the register map, and the tokens `post`, is assembled
to the instruction built from the mnemonic and `pre`, then the register id of
`tok`, then what the tokens `post` contribute.  Nothing is asked of the shape
of `tok`: it may parse as an integer, start with `$` or start with `_`. -/
theorem C5_register_takes_precedence (instructions registers : List (Str × Int))
    (dataValues : List (Str × Str)) (rawFunctions : SymTable)
    (instr mnemonic tok : Str) (pre post : List Str) (reg : Int)
    (hs : Split instr ' ' = mnemonic :: (pre ++ tok :: post))
    (hr : mapGet? registers tok = some reg) :
    resolveOperand registers dataValues rawFunctions [] tok = [.int reg]
    ∧ compileInstruction instructions registers dataValues rawFunctions instr
      = resolveOperands registers dataValues rawFunctions
            [.int (mapRead 0 instructions mnemonic)] pre
          ++ [.int reg]
          ++ resolveOperands registers dataValues rawFunctions [] post := by
  have h1 : resolveOperand registers dataValues rawFunctions [] tok = [.int reg] := by
    unfold resolveOperand
    rw [hr]
    rfl
  refine ⟨h1, ?_⟩
  unfold compileInstruction
  rw [hs]
  simp only [List.headD_cons, List.tail_cons]
  rw [resolveOperands_split, h1]

/-- C5: the theorem applied to the line `mov 7 $x _main+1 8` at its token `7`,
with a register map that names `7`, `$x` and `_main+1`. -/
theorem C5_register_takes_precedence_witness :
    resolveOperand oddRegisters [("x".toList, "5".toList)]
        [("_main".toList, ⟨0, []⟩)] [] "7".toList = [.int 3]
    ∧ compileInstruction exampleInstructions oddRegisters [("x".toList, "5".toList)]
        [("_main".toList, ⟨0, []⟩)] "mov 7 $x _main+1 8".toList
      = resolveOperands oddRegisters [("x".toList, "5".toList)] [("_main".toList, ⟨0, []⟩)]
            [.int (mapRead 0 exampleInstructions "mov".toList)] []
          ++ [.int 3]
          ++ resolveOperands oddRegisters [("x".toList, "5".toList)]
              [("_main".toList, ⟨0, []⟩)] [] ["$x".toList, "_main+1".toList, "8".toList] :=
  C5_register_takes_precedence exampleInstructions oddRegisters [("x".toList, "5".toList)]
    [("_main".toList, ⟨0, []⟩)] "mov 7 $x _main+1 8".toList "mov".toList "7".toList []
    ["$x".toList, "_main+1".toList, "8".toList] 3 (by decide) (by decide)

/-- C6, as stated, fails: the text `unknownMnemonic` has the body line
`jmp r0` whose first token is no key of `exampleInstructions`, and
`CompileShellcode` returns no error: it hands the encoder a program whose
instruction for that line starts with the opcode 0. -/
theorem C6_unknown_mnemonic_is_assembled :
    mapGet? exampleInstructions "jmp".toList = none
    ∧ CompileShellcode (some unknownMnemonic) exampleInstructions exampleRegisters id
      = .ok [.int64 0, .slice [.int 0, .int 0]] := by
  constructor <;> decide

/-- C6, amended: a body line whose first field is no key of the mnemonic map
raises no error; it is assembled to the opcode 0, the zero value of the map
read, followed by what its operand tokens contribute.  Whether and how
`CompileShellcode` fails does not depend on the mnemonic map: it fails exactly
as with the empty map. -/
theorem C6_unknown_mnemonic_gets_opcode_zero (instructions registers : List (Str × Int))
    (dataValues : List (Str × Str)) (rawFunctions : SymTable) (instr : Str)
    (h : mapGet? instructions ((Split instr ' ').headD []) = none) :
    compileInstruction instructions registers dataValues rawFunctions instr
      = .int 0 :: resolveOperands registers dataValues rawFunctions []
          (Split instr ' ').tail
    ∧ ∀ (file : Option Str) (rangeOrder : SymTable → SymTable) (e : Failure),
        CompileShellcode file instructions registers rangeOrder = .error e
          ↔ CompileShellcode file [] registers rangeOrder = .error e := by
  constructor
  · unfold compileInstruction
    simp only [mapRead, h]
    rw [resolveOperands_append]
    rfl
  · intro file rangeOrder e
    exact CompileShellcode_error_iff file instructions [] registers rangeOrder e

/-- C6: the amended theorem applied to the line `jmp r0`. -/
theorem C6_unknown_mnemonic_gets_opcode_zero_witness :
    compileInstruction exampleInstructions exampleRegisters [] [] "jmp r0".toList
      = .int 0 :: resolveOperands exampleRegisters [] [] []
          (Split "jmp r0".toList ' ').tail
    ∧ ∀ (file : Option Str) (rangeOrder : SymTable → SymTable) (e : Failure),
        CompileShellcode file exampleInstructions exampleRegisters rangeOrder = .error e
          ↔ CompileShellcode file [] exampleRegisters rangeOrder = .error e :=
  C6_unknown_mnemonic_gets_opcode_zero exampleInstructions exampleRegisters [] []
    "jmp r0".toList (by decide)

/-- C7, as stated, fails: the text `undefinedData` has the operand `$y`, no
register, while `.data` defines `x` only, and `CompileShellcode` returns no
error: it hands the encoder a program whose instruction holds the nil value
as operand. -/
theorem C7_unresolved_data_is_assembled :
    mapGet? exampleRegisters "$y".toList = none
    ∧ CompileShellcode (some undefinedData) exampleInstructions exampleRegisters id
      = .ok [.int64 0, .slice [.int 1, .int 0, .nil]] := by
  constructor <;> decide

/-- C7, amended: an operand token that is no register name, starts with `$`
and whose remainder is no key of the data values raises no error; the nil
value (what reading the absent key gives) is appended as its operand, between
what the tokens before it and the tokens after it contribute.  Without a
`.data` section the data values are the empty map, which has no key. -/
theorem C7_unresolved_data_appends_nil (instructions registers : List (Str × Int))
    (dataValues : List (Str × Str)) (rawFunctions : SymTable)
    (instr mnemonic tok : Str) (pre post : List Str)
    (hs : Split instr ' ' = mnemonic :: (pre ++ tok :: post))
    (hr : mapGet? registers tok = none)
    (hp : HasPrefix tok "$".toList = true)
    (hd : mapGet? dataValues (tok.drop 1) = none) :
    (compileInstruction instructions registers dataValues rawFunctions instr
      = resolveOperands registers dataValues rawFunctions
            [.int (mapRead 0 instructions mnemonic)] pre
          ++ [.nil]
          ++ resolveOperands registers dataValues rawFunctions [] post)
    ∧ (∀ rawSections : SymTable, mapGet? rawSections ".data".toList = none →
        dataValuesOf rawSections = .ok []) := by
  have h1 : resolveOperand registers dataValues rawFunctions [] tok = [.nil] := by
    unfold resolveOperand
    rw [hr]
    simp only [hp, if_true, hd]
    rfl
  constructor
  · unfold compileInstruction
    rw [hs]
    simp only [List.headD_cons, List.tail_cons]
    rw [resolveOperands_split, h1]
  · intro rawSections hn
    unfold dataValuesOf
    rw [hn]

/-- C7: the amended theorem applied to the line `mov r0 $y` at its token `$y`
with the data values of `undefinedData`. -/
theorem C7_unresolved_data_appends_nil_witness :
    (compileInstruction exampleInstructions exampleRegisters [("x".toList, "5".toList)] []
        "mov r0 $y".toList
      = resolveOperands exampleRegisters [("x".toList, "5".toList)] []
            [.int (mapRead 0 exampleInstructions "mov".toList)] ["r0".toList]
          ++ [.nil]
          ++ resolveOperands exampleRegisters [("x".toList, "5".toList)] [] [] [])
    ∧ (∀ rawSections : SymTable, mapGet? rawSections ".data".toList = none →
        dataValuesOf rawSections = .ok []) :=
  C7_unresolved_data_appends_nil exampleInstructions exampleRegisters
    [("x".toList, "5".toList)] [] "mov r0 $y".toList "mov".toList "$y".toList
    ["r0".toList] [] (by decide) (by decide) (by decide) (by decide)

/-! ## The entrypoint error -/

/-- When the text has a `.text` section with a non-empty body (trimmed first
line `entryPointName`), `CompileShellcode` returns the error
`compiler: No entrypoint found` exactly when `entryPointName` is no key of the
function table as `extractRawSymbols` built it. -/
theorem noEntrypoint_iff_absent (file : Option Str) (instructions registers : List (Str × Int))
    (rangeOrder : SymTable → SymTable) (fileLines : List Str)
    (rawSections rawFunctions : SymTable) (text : rawSymbol)
    (entryPointName : Str) (rest : List Str)
    (hl : getFileLines file = .ok fileLines)
    (hx : extractRawSymbols fileLines = .ok (rawSections, rawFunctions))
    (ht : mapGet? rawSections ".text".toList = some text)
    (hc : text.Content = entryPointName :: rest) :
    CompileShellcode file instructions registers rangeOrder
        = .error (.error "compiler: No entrypoint found")
      ↔ mapGet? rawFunctions entryPointName = none := by
  have hc' : (mapRead zeroSymbol rawSections ".text".toList).Content
      = entryPointName :: rest := by
    unfold mapRead
    rw [ht]
    exact hc
  unfold CompileShellcode
  rw [hl]
  simp only
  unfold assembleShellcode
  rw [hx]
  simp only [hc']
  cases he : mapGet? rawFunctions entryPointName with
  | none => simp
  | some entry =>
    simp only
    cases hd : dataValuesOf rawSections with
    | error e =>
      have := dataValuesOf_error _ _ hd
      subst this
      simp
    | ok D => simp

/-- C8, evaluated on the code: in the text `sectionEntrypoint` no line starts
with `_`, so no function header gives a key and the name `_x` on the first
body line of `.text` names no function; yet `CompileShellcode` does not return
the error `compiler: No entrypoint found`: the line `section _x:` has put `_x`
into the function table and a program is handed to the encoder. -/
theorem C8_section_name_passes_the_entrypoint_check :
    getFileLines (some sectionEntrypoint)
        = .ok ["section .text:".toList, "  _x".toList, "section _x:".toList,
            "  mov r0 r1".toList]
    ∧ List.filter (fun line => HasPrefix line "_".toList)
          ["section .text:".toList, "  _x".toList, "section _x:".toList,
            "  mov r0 r1".toList] = []
    ∧ extractRawSymbols ["section .text:".toList, "  _x".toList, "section _x:".toList,
          "  mov r0 r1".toList]
        = .ok ([(".text".toList, ⟨0, ["_x".toList]⟩),
                ("_x".toList, ⟨1, ["mov r0 r1".toList]⟩)],
               [("_x".toList, ⟨0, ["mov r0 r1".toList]⟩)])
    ∧ CompileShellcode (some sectionEntrypoint) exampleInstructions exampleRegisters id
        = .ok [.int64 0, .slice [.int 1, .int 0, .int 1]]
    ∧ CompileShellcode (some sectionEntrypoint) exampleInstructions exampleRegisters id
        ≠ .error (.error "compiler: No entrypoint found") := by
  refine ⟨?_, ?_, ?_, ?_, ?_⟩ <;> decide

/-! ## The scan loop -/

theorem Map_length {α : Type} (ss : List α) (f : α → α) : (Map ss f).length = ss.length := by
  induction ss with
  | nil => rfl
  | cons s rest ih => simp [Map, ih]

theorem extractRawSymbol_append_drop (lines : List Str) :
    extractRawSymbol lines ++ lines.drop (extractRawSymbol lines).length = lines := by
  induction lines with
  | nil => rfl
  | cons line rest ih =>
    unfold extractRawSymbol
    split
    · simp only [List.length_cons, List.drop_succ_cons, List.cons_append, ih]
    · rfl

theorem extractRawSymbol_isBodyLine (lines : List Str) :
    ∀ line ∈ extractRawSymbol lines, isBodyLine line = true := by
  induction lines with
  | nil => intro line h; cases h
  | cons l rest ih =>
    intro line h
    unfold extractRawSymbol at h
    split at h
    · rcases List.mem_cons.mp h with h1 | h1
      · subst h1; assumption
      · exact ih line h1
    · cases h

theorem extractRawSymbol_append (body rest : List Str)
    (h : ∀ line ∈ body, isBodyLine line = true) :
    extractRawSymbol (body ++ rest) = body ++ extractRawSymbol rest := by
  induction body with
  | nil => rfl
  | cons l body ih =>
    have hl : isBodyLine l = true := h l (List.mem_cons_self _ _)
    have hb : ∀ line ∈ body, isBodyLine line = true :=
      fun line hm => h line (List.mem_cons_of_mem _ hm)
    show extractRawSymbol (l :: (body ++ rest)) = l :: (body ++ extractRawSymbol rest)
    rw [extractRawSymbol, if_pos hl, ih hb]

theorem extractRawSymbol_nil_head (lines : List Str) (h : extractRawSymbol lines = []) :
    ∀ line ∈ lines.head?, isBodyLine line = false := by
  cases lines with
  | nil => intro line hm; cases hm
  | cons l rest =>
    intro line hm
    simp only [List.head?_cons, Option.mem_def, Option.some.injEq] at hm
    subst hm
    unfold extractRawSymbol at h
    split at h
    · cases h
    · simpa using ‹¬ isBodyLine l = true›

theorem blockLines_append (pre post : List (Str × List Str)) :
    blockLines (pre ++ post) = blockLines pre ++ blockLines post := by
  induction pre with
  | nil => rfl
  | cons b pre ih =>
    obtain ⟨n, body⟩ := b
    simp [blockLines, ih]

theorem blockLines_scanBlocks (fuel : Nat) (lines : List Str) (h : lines.length ≤ fuel) :
    blockLines (scanBlocks fuel lines) = lines := by
  induction fuel generalizing lines with
  | zero =>
    have : lines = [] := List.length_eq_zero.mp (Nat.le_zero.mp h)
    subst this
    rfl
  | succ fuel ih =>
    cases lines with
    | nil => rfl
    | cons symName rest =>
      simp only [scanBlocks, blockLines]
      rw [ih]
      · rw [extractRawSymbol_append_drop]
      · simp only [List.length_cons] at h
        simp only [List.length_drop]
        omega

theorem scanBlocks_body (fuel : Nat) (lines : List Str) (h : lines.length ≤ fuel)
    (pre post : List (Str × List Str)) (symName : Str) (body : List Str)
    (hs : scanBlocks fuel lines = pre ++ (symName, body) :: post) :
    body = extractRawSymbol (body ++ blockLines post) := by
  induction fuel generalizing lines pre with
  | zero => cases pre <;> simp [scanBlocks] at hs
  | succ fuel ih =>
    cases lines with
    | nil => cases pre <;> simp [scanBlocks] at hs
    | cons name rest =>
      have hlen : (rest.drop (extractRawSymbol rest).length).length ≤ fuel := by
        simp only [List.length_cons] at h
        simp only [List.length_drop]
        omega
      simp only [scanBlocks] at hs
      cases pre with
      | nil =>
        simp only [List.nil_append, List.cons.injEq, Prod.mk.injEq] at hs
        obtain ⟨⟨_, hb⟩, hp⟩ := hs
        rw [← hp, blockLines_scanBlocks _ _ hlen, ← hb, extractRawSymbol_append_drop]
      | cons p pre =>
        simp only [List.cons_append, List.cons.injEq] at hs
        exact ih _ hlen pre hs.2

theorem extractLoop_eq_registerAll (fileLines : List Str) (fuel idx : Nat) (t : Tables)
    (h : fileLines.length - idx < fuel) :
    extractLoop fileLines fuel idx t
      = registerAll t (scanBlocks fuel (fileLines.drop idx)) := by
  induction fuel generalizing idx t with
  | zero => omega
  | succ fuel ih =>
    unfold extractLoop
    by_cases hi : idx < fileLines.length
    · have hd : fileLines.drop idx = fileLines.getD idx [] :: fileLines.drop (idx + 1) := by
        rw [List.getD_eq_getElem _ _ hi]
        exact List.drop_eq_getElem_cons hi
      rw [if_pos hi, hd]
      simp only [scanBlocks, registerAll, Map_length]
      cases registerSymbol t (fileLines.getD idx [])
          (Map (extractRawSymbol (fileLines.drop (idx + 1))) TrimSpace) with
      | error e => rfl
      | ok t' =>
        simp only
        rw [ih _ _ (by omega), List.drop_drop]
    · rw [if_neg hi, List.drop_eq_nil_of_le (by omega)]
      rfl

theorem extractRawSymbols_eq_registerAll (fileLines : List Str) :
    extractRawSymbols fileLines
      = tablesOf (registerAll ⟨[], [], 0⟩ (blocksOf fileLines)) := by
  unfold extractRawSymbols blocksOf
  rw [extractLoop_eq_registerAll _ _ _ _ (by omega)]
  rfl

theorem registerSymbol_ne_outOfFuel (t : Tables) (symName : Str) (symContent : List Str) :
    registerSymbol t symName symContent ≠ .error .outOfFuel := by
  unfold registerSymbol
  repeat' split
  all_goals simp

theorem registerAll_ne_outOfFuel (blocks : List (Str × List Str)) (t : Tables) :
    registerAll t blocks ≠ .error .outOfFuel := by
  induction blocks generalizing t with
  | nil => simp [registerAll]
  | cons b rest ih =>
    obtain ⟨n, body⟩ := b
    simp only [registerAll]
    cases h : registerSymbol t n (Map body TrimSpace) with
    | error e =>
      intro hc
      simp only [Except.error.injEq] at hc
      subst hc
      exact registerSymbol_ne_outOfFuel _ _ _ h
    | ok t' => exact ih t'

/-! ## Function addresses -/

theorem mapGet?_mapSet_self {β : Type} (m : List (Str × β)) (k : Str) (v : β) :
    mapGet? (mapSet m k v) k = some v := by
  induction m with
  | nil => simp [mapSet, mapGet?]
  | cons e rest ih =>
    obtain ⟨k', v'⟩ := e
    unfold mapSet
    split
    · simp [mapGet?]
    · rename_i hne
      simp only [mapGet?, hne, if_false, ih]

theorem mapSet_of_absent {β : Type} (m : List (Str × β)) (k : Str) (v : β)
    (h : mapGet? m k = none) : mapSet m k v = m ++ [(k, v)] := by
  induction m with
  | nil => rfl
  | cons e rest ih =>
    obtain ⟨k', v'⟩ := e
    unfold mapGet? at h
    split at h
    · cases h
    · rename_i hne
      simp only [mapSet, hne, if_false, ih h, List.cons_append]

theorem mapGet?_append_absent {β : Type} (m : List (Str × β)) (k k' : Str) (v : β)
    (h : mapGet? m k' = none) (hne : k ≠ k') : mapGet? (m ++ [(k, v)]) k' = none := by
  induction m with
  | nil => simp [mapGet?, hne]
  | cons e rest ih =>
    obtain ⟨k₀, v₀⟩ := e
    unfold mapGet? at h
    split at h
    · cases h
    · rename_i hne₀
      show mapGet? ((k₀, v₀) :: (rest ++ [(k, v)])) k' = none
      rw [mapGet?, if_neg hne₀]
      exact ih h

theorem registerFunction_pos (t : Tables) (symName : Str) (symContent : List Str)
    (h : HasPrefix symName "_".toList = true) :
    registerFunction t symName symContent
      = { t with
          functions := mapSet t.functions (TrimSuffix symName ":".toList)
            { Content := symContent, Address := (t.funcIdx : Int) }
          funcIdx := t.funcIdx + symContent.length } := by
  unfold registerFunction
  rw [if_pos h]

theorem registerFunction_neg (t : Tables) (symName : Str) (symContent : List Str)
    (h : ¬ HasPrefix symName "_".toList = true) :
    registerFunction t symName symContent = t := by
  unfold registerFunction
  rw [if_neg h]

theorem registerSymbol_function (t : Tables) (symName key : Str) (symContent : List Str)
    (hk : functionKey symName = some key) :
    ∃ t', registerSymbol t symName symContent = .ok t'
      ∧ t'.functions
          = mapSet t.functions key { Address := (t.funcIdx : Int), Content := symContent }
      ∧ t'.funcIdx = t.funcIdx + symContent.length := by
  unfold functionKey at hk
  unfold registerSymbol
  by_cases hsec : HasPrefix symName "section".toList = true
  · rw [if_pos hsec] at hk ⊢
    cases hf : (Split symName ' ')[1]? with
    | none => rw [hf] at hk; cases hk
    | some field =>
      rw [hf] at hk
      by_cases hfun : HasPrefix (TrimSuffix field ":".toList) "_".toList = true
      · simp only [if_pos hfun, Option.some.injEq] at hk
        subst hk
        refine ⟨_, rfl, ?_, ?_⟩ <;> rw [registerFunction_pos _ _ _ hfun]
      · simp only [if_neg hfun] at hk
        cases hk
  · rw [if_neg hsec] at hk ⊢
    by_cases hfun : HasPrefix symName "_".toList = true
    · simp only [if_pos hfun, Option.some.injEq] at hk
      subst hk
      refine ⟨_, rfl, ?_, ?_⟩ <;> rw [registerFunction_pos _ _ _ hfun]
    · simp only [if_neg hfun] at hk
      cases hk

theorem registerSymbol_other (t t' : Tables) (symName : Str) (symContent : List Str)
    (hk : functionKey symName = none)
    (h : registerSymbol t symName symContent = .ok t') :
    t'.functions = t.functions ∧ t'.funcIdx = t.funcIdx := by
  unfold functionKey at hk
  unfold registerSymbol at h
  by_cases hsec : HasPrefix symName "section".toList = true
  · rw [if_pos hsec] at hk h
    cases hf : (Split symName ' ')[1]? with
    | none => rw [hf] at h; cases h
    | some field =>
      rw [hf] at hk h
      by_cases hfun : HasPrefix (TrimSuffix field ":".toList) "_".toList = true
      · simp only [if_pos hfun] at hk
        cases hk
      · simp only [Except.ok.injEq] at h
        rw [registerFunction_neg _ _ _ hfun] at h
        subst h
        exact ⟨rfl, rfl⟩
  · rw [if_neg hsec] at hk h
    by_cases hfun : HasPrefix symName "_".toList = true
    · simp only [if_pos hfun] at hk
      cases hk
    · simp only [Except.ok.injEq] at h
      rw [registerFunction_neg _ _ _ hfun] at h
      subst h
      exact ⟨rfl, rfl⟩

theorem registerAll_funcIdx (blocks : List (Str × List Str)) (t t' : Tables)
    (h : registerAll t blocks = .ok t') :
    t'.funcIdx = t.funcIdx + bodyLengths (functionBlocks blocks) := by
  induction blocks generalizing t with
  | nil =>
    simp only [registerAll, Except.ok.injEq] at h
    subst h
    rfl
  | cons b rest ih =>
    obtain ⟨symName, body⟩ := b
    simp only [registerAll] at h
    cases hk : functionKey symName with
    | none =>
      cases hr : registerSymbol t symName (Map body TrimSpace) with
      | error e => rw [hr] at h; cases h
      | ok t₁ =>
        rw [hr] at h
        have h1 := registerSymbol_other t t₁ symName _ hk hr
        rw [ih t₁ h, h1.2]
        simp only [functionBlocks, hk]
    | some key =>
      obtain ⟨t₁, hr, _, h2⟩ := registerSymbol_function t symName key (Map body TrimSpace) hk
      rw [hr] at h
      rw [ih t₁ h, h2]
      simp only [functionBlocks, hk, bodyLengths]
      omega

theorem registerAll_functions (blocks : List (Str × List Str)) (t t' : Tables)
    (h : registerAll t blocks = .ok t')
    (hnd : ((functionBlocks blocks).map Prod.fst).Nodup)
    (habs : ∀ k ∈ (functionBlocks blocks).map Prod.fst, mapGet? t.functions k = none) :
    t'.functions = t.functions ++ prefixAddresses t.funcIdx (functionBlocks blocks) := by
  induction blocks generalizing t with
  | nil =>
    simp only [registerAll, Except.ok.injEq] at h
    subst h
    simp [functionBlocks, prefixAddresses]
  | cons b rest ih =>
    obtain ⟨symName, body⟩ := b
    simp only [registerAll] at h
    cases hk : functionKey symName with
    | none =>
      simp only [functionBlocks, hk] at hnd habs ⊢
      cases hr : registerSymbol t symName (Map body TrimSpace) with
      | error e => rw [hr] at h; cases h
      | ok t₁ =>
        rw [hr] at h
        have h1 := registerSymbol_other t t₁ symName _ hk hr
        rw [ih t₁ h hnd (by rw [h1.1]; exact habs), h1.1, h1.2]
    | some key =>
      simp only [functionBlocks, hk, List.map_cons, List.nodup_cons, List.mem_cons,
        forall_eq_or_imp] at hnd habs ⊢
      obtain ⟨t₁, hr, h1, h2⟩ := registerSymbol_function t symName key (Map body TrimSpace) hk
      rw [hr] at h
      rw [mapSet_of_absent _ _ _ habs.1] at h1
      have habs₁ : ∀ k ∈ (functionBlocks rest).map Prod.fst, mapGet? t₁.functions k = none := by
        intro k hm
        rw [h1]
        refine mapGet?_append_absent _ _ _ _ (habs.2 k hm) ?_
        intro heq
        subst heq
        exact hnd.1 hm
      rw [ih t₁ h hnd.2 habs₁, h1, h2]
      simp [prefixAddresses, Map_length]

/-- C9: the loop of `extractRawSymbols` registers the blocks of the text in
source order.  When it reaches a block after having registered the blocks
`pre`, its counter is the sum of the body lengths of the function-classified
blocks among `pre` (0 when there is none); if the block is classified as a
function, it is stored under its key with that sum as `Address` and the
counter grows by the length of its body.  So when the function keys are
pairwise distinct, the function table returned is the list of the function
blocks in source order, each with the prefix sum of the body lengths before
it as `Address`. -/
theorem C9_function_addresses (fileLines : List Str) :
    extractRawSymbols fileLines
        = tablesOf (registerAll ⟨[], [], 0⟩ (blocksOf fileLines))
    ∧ (∀ (pre post : List (Str × List Str)) (symName : Str) (body : List Str) (t : Tables),
        blocksOf fileLines = pre ++ (symName, body) :: post →
        registerAll ⟨[], [], 0⟩ pre = .ok t →
          t.funcIdx = bodyLengths (functionBlocks pre)
          ∧ ∀ key, functionKey symName = some key →
              ∃ t', registerSymbol t symName (Map body TrimSpace) = .ok t'
                ∧ mapGet? t'.functions key
                    = some { Address := (bodyLengths (functionBlocks pre) : Int),
                             Content := Map body TrimSpace }
                ∧ t'.funcIdx = bodyLengths (functionBlocks pre) + body.length)
    ∧ (∀ rawSections rawFunctions : SymTable,
        extractRawSymbols fileLines = .ok (rawSections, rawFunctions) →
        ((functionBlocks (blocksOf fileLines)).map Prod.fst).Nodup →
          rawFunctions = prefixAddresses 0 (functionBlocks (blocksOf fileLines))) := by
  refine ⟨extractRawSymbols_eq_registerAll fileLines, ?_, ?_⟩
  · intro pre post symName body t _ hpre
    have hidx : t.funcIdx = bodyLengths (functionBlocks pre) := by
      rw [registerAll_funcIdx pre _ t hpre]
      simp
    refine ⟨hidx, ?_⟩
    intro key hk
    obtain ⟨t', hr, h1, h2⟩ := registerSymbol_function t symName key (Map body TrimSpace) hk
    refine ⟨t', hr, ?_, ?_⟩
    · rw [h1, mapGet?_mapSet_self, hidx]
    · rw [h2, hidx, Map_length]
  · intro rawSections rawFunctions hx hnd
    rw [extractRawSymbols_eq_registerAll] at hx
    cases hr : registerAll ⟨[], [], 0⟩ (blocksOf fileLines) with
    | error e => rw [hr] at hx; cases hx
    | ok t =>
      rw [hr] at hx
      simp only [tablesOf, Except.ok.injEq, Prod.mk.injEq] at hx
      rw [← hx.2, registerAll_functions _ _ t hr hnd (fun _ _ => rfl)]
      rfl

/-- C9: the theorem applied to the lines of `twoFunctions`: the function
table holds `_a` at address 0 and `_b` at address 1. -/
theorem C9_function_addresses_witness :
    [("_a".toList, (⟨0, ["mov r0 1".toList]⟩ : rawSymbol)),
      ("_b".toList, ⟨1, ["add r0 r1".toList]⟩)]
      = prefixAddresses 0 (functionBlocks (blocksOf
          ["section .text:".toList, "  _a".toList, "_a:".toList, "  mov r0 1".toList,
            "_b:".toList, "  add r0 r1".toList])) :=
  (C9_function_addresses
    ["section .text:".toList, "  _a".toList, "_a:".toList, "  mov r0 1".toList,
      "_b:".toList, "  add r0 r1".toList]).2.2
    [(".text".toList, ⟨0, ["_a".toList]⟩)]
    [("_a".toList, ⟨0, ["mov r0 1".toList]⟩), ("_b".toList, ⟨1, ["add r0 r1".toList]⟩)]
    (by decide) (by decide)

theorem body_maximal (body rest : List Str) (h : body = extractRawSymbol (body ++ rest)) :
    (∀ line ∈ body, isBodyLine line = true)
    ∧ ∀ next ∈ rest.head?, isBodyLine next = false := by
  have hall : ∀ line ∈ body, isBodyLine line = true := by
    intro line hm
    rw [h] at hm
    exact extractRawSymbol_isBodyLine _ line hm
  refine ⟨hall, ?_⟩
  rw [extractRawSymbol_append body rest hall] at h
  exact extractRawSymbol_nil_head rest (List.self_eq_append_right.mp h)

/-! ## Block scanning -/

/-- The loop of `extractRawSymbols` never runs out of fuel and its result is
that of registering the blocks `blocksOf fileLines` in order, up to the first
panic.  These blocks, name line then body, concatenated in order are the
input; the body of each block is what `extractRawSymbol` returns for the lines
after its name line, and the name line of every block but the first starts
with neither two spaces nor a tab. -/
theorem blocksOf_partition (fileLines : List Str) :
    extractRawSymbols fileLines ≠ .error .outOfFuel
    ∧ extractRawSymbols fileLines
        = tablesOf (registerAll ⟨[], [], 0⟩ (blocksOf fileLines))
    ∧ blockLines (blocksOf fileLines) = fileLines
    ∧ ∀ (pre post : List (Str × List Str)) (symName : Str) (body : List Str),
        blocksOf fileLines = pre ++ (symName, body) :: post →
          fileLines = blockLines pre ++ symName :: (body ++ blockLines post)
          ∧ body = extractRawSymbol (body ++ blockLines post)
          ∧ (∀ line ∈ body, isBodyLine line = true)
          ∧ (∀ next ∈ (blockLines post).head?, isBodyLine next = false)
          ∧ (pre ≠ [] → isBodyLine symName = false) := by
  have hcat : blockLines (blocksOf fileLines) = fileLines :=
    blockLines_scanBlocks _ _ (Nat.le_succ _)
  refine ⟨?_, extractRawSymbols_eq_registerAll fileLines, hcat, ?_⟩
  · rw [extractRawSymbols_eq_registerAll]
    intro hc
    cases hr : registerAll ⟨[], [], 0⟩ (blocksOf fileLines) with
    | error e =>
      rw [hr] at hc
      simp only [tablesOf, Except.error.injEq] at hc
      subst hc
      exact registerAll_ne_outOfFuel _ _ hr
    | ok t =>
      rw [hr] at hc
      simp [tablesOf] at hc
  · intro pre post symName body hs
    have hbody : body = extractRawSymbol (body ++ blockLines post) :=
      scanBlocks_body _ _ (Nat.le_succ _) pre post symName body hs
    have hmax := body_maximal body (blockLines post) hbody
    refine ⟨?_, hbody, hmax.1, hmax.2, ?_⟩
    · rw [← hcat, hs, blockLines_append]
      rfl
    · intro hne
      rcases List.eq_nil_or_concat pre with hnil | ⟨pre', prev, hp⟩
      · exact absurd hnil hne
      · obtain ⟨prevName, prevBody⟩ := prev
        have hs' : blocksOf fileLines
            = pre' ++ (prevName, prevBody) :: ((symName, body) :: post) := by
          rw [hs, hp]
          simp
        have hprev := scanBlocks_body _ _ (Nat.le_succ _) pre' _ prevName prevBody hs'
        exact (body_maximal prevBody _ hprev).2 symName (by simp [blockLines])

theorem extractLoopTrace_result (fileLines : List Str) (fuel idx : Nat) (t : Tables)
    (seen : List (Str × List Str)) :
    (extractLoopTrace fileLines fuel idx t seen).2 = extractLoop fileLines fuel idx t := by
  induction fuel generalizing idx t seen with
  | zero => rfl
  | succ fuel ih =>
    unfold extractLoopTrace extractLoop
    by_cases hi : idx < fileLines.length
    · rw [if_pos hi, if_pos hi]
      simp only
      cases registerSymbol t (fileLines.getD idx [])
          (Map (extractRawSymbol (fileLines.drop (idx + 1))) TrimSpace) with
      | error e => rfl
      | ok t' => exact ih _ _ _
    · rw [if_neg hi, if_neg hi]

theorem extractLoopTrace_blocks (fileLines : List Str) (fuel idx : Nat) (t t' : Tables)
    (seen : List (Str × List Str)) (h : fileLines.length - idx < fuel)
    (hok : extractLoop fileLines fuel idx t = .ok t') :
    (extractLoopTrace fileLines fuel idx t seen).1
      = seen ++ scanBlocks fuel (fileLines.drop idx) := by
  induction fuel generalizing idx t seen with
  | zero => omega
  | succ fuel ih =>
    unfold extractLoop at hok
    unfold extractLoopTrace
    by_cases hi : idx < fileLines.length
    · have hd : fileLines.drop idx = fileLines.getD idx [] :: fileLines.drop (idx + 1) := by
        rw [List.getD_eq_getElem _ _ hi]
        exact List.drop_eq_getElem_cons hi
      rw [if_pos hi] at hok ⊢
      rw [hd]
      simp only [scanBlocks, Map_length] at hok ⊢
      cases hr : registerSymbol t (fileLines.getD idx [])
          (Map (extractRawSymbol (fileLines.drop (idx + 1))) TrimSpace) with
      | error e => rw [hr] at hok; cases hok
      | ok t₁ =>
        rw [hr] at hok
        simp only at hok ⊢
        rw [ih _ _ _ (by omega) hok, List.drop_drop, List.append_assoc]
        rfl
    · rw [if_neg hi, List.drop_eq_nil_of_le (by omega)]
      simp [scanBlocks]

/-- When `extractRawSymbols` returns its tables, the iterations of its loop are
the blocks `blocksOf fileLines`, which `blocksOf_partition` describes. -/
theorem extractTrace_of_ok (fileLines : List Str) (tabs : SymTable × SymTable)
    (h : extractRawSymbols fileLines = .ok tabs) :
    (extractTrace fileLines).1 = blocksOf fileLines := by
  unfold extractRawSymbols at h
  cases hl : extractLoop fileLines (fileLines.length + 1) 0 ⟨[], [], 0⟩ with
  | error e => rw [hl] at h; cases h
  | ok t =>
    unfold extractTrace blocksOf
    rw [extractLoopTrace_blocks fileLines _ 0 _ t [] (by omega) hl]
    rfl

/-- C10, evaluated on the code: on the three lines `sectionWithoutSpace` the
loop of `extractRawSymbols` does not cut the list into segments that cover it.
Its first iteration takes the name line `sectionfoo` with an empty body and
panics in the classification (index out of range); the loop ends there, and
the lines `_main:` and `  mov r0 r1` are never scanned. -/
theorem C10_scan_stops_at_the_panic :
    extractTrace sectionWithoutSpace
        = ([("sectionfoo".toList, [])], .error .indexOutOfRange)
    ∧ extractRawSymbols sectionWithoutSpace = .error .indexOutOfRange
    ∧ blockLines [("sectionfoo".toList, [])] = ["sectionfoo".toList]
    ∧ blockLines [("sectionfoo".toList, [])] ≠ sectionWithoutSpace := by
  refine ⟨?_, ?_, ?_, ?_⟩ <;> decide

/-! ## Classification of name lines -/

/-- C11, evaluated on the code: a name line that starts with `section ` can be
registered in both tables.  For the name line `section _x:` with the body
`a=1`, `registerSymbol` stores `_x` in the section table and, the test of line
106 reading the replaced name `_x`, also in the function table, and the
function counter grows by 1; the function `_main` that follows gets the
address 1 instead of 0. -/
theorem C11_section_is_also_registered_as_function :
    registerSymbol ⟨[], [], 0⟩ "section _x:".toList ["a=1".toList]
      = .ok ⟨[("_x".toList, ⟨0, ["a=1".toList]⟩)],
             [("_x".toList, ⟨0, ["a=1".toList]⟩)], 1⟩
    ∧ extractRawSymbols sectionUnderscore
      = .ok ([("_x".toList, ⟨0, ["a=1".toList]⟩)],
             [("_x".toList, ⟨0, ["a=1".toList]⟩),
              ("_main".toList, ⟨1, ["mov r0 r1".toList]⟩)]) := by
  constructor <;> decide

/-- C12, evaluated on the code: a name line that starts with `section` not
followed by a space is not ignored.  On `sectionfoo` and on `section:` the
loop panics (index out of range at field 1 of the split at spaces); on
`sectionfoo bar:` it stores a section `bar`.  A line such as `; comment` is
ignored. -/
theorem C12_section_without_space_is_not_ignored :
    extractRawSymbols ["sectionfoo".toList] = .error .indexOutOfRange
    ∧ extractRawSymbols ["section:".toList, "  x".toList] = .error .indexOutOfRange
    ∧ extractRawSymbols ["sectionfoo bar:".toList, "  x".toList]
        = .ok ([("bar".toList, ⟨0, ["x".toList]⟩)], [])
    ∧ extractRawSymbols ["; comment".toList, "  x".toList] = .ok ([], []) := by
  refine ⟨?_, ?_, ?_, ?_⟩ <;> decide

/-! ## The data section -/

theorem Split_eq (s : Str) (sep : Char) :
    Split s sep
      = s.takeWhile (fun c => c != sep)
        :: (match s.dropWhile (fun c => c != sep) with
            | [] => []
            | _ :: rest => Split rest sep) := by
  induction s with
  | nil => rfl
  | cons c cs ih =>
    rw [Split]
    by_cases hc : c = sep
    · rw [if_pos hc]
      have hb : (c != sep) = false := by simp [hc]
      simp only [List.takeWhile_cons, List.dropWhile_cons, hb, Bool.false_eq_true,
        ↓reduceIte]
    · rw [if_neg hc]
      have hb : (c != sep) = true := by simp [hc]
      simp only [List.takeWhile_cons, List.dropWhile_cons, hb, ↓reduceIte]
      rw [ih]

theorem Split_head (s : Str) (sep : Char) :
    (Split s sep).headD [] = s.takeWhile (fun c => c != sep) := by
  rw [Split_eq]
  rfl

theorem Split_field1 (s : Str) (sep : Char) :
    (Split s sep)[1]?
      = match s.dropWhile (fun c => c != sep) with
        | [] => none
        | _ :: rest => some (rest.takeWhile (fun c => c != sep)) := by
  rw [Split_eq]
  cases s.dropWhile (fun c => c != sep) with
  | nil => rfl
  | cons c rest =>
    simp only [List.getElem?_cons_succ]
    rw [Split_eq]
    simp only [List.getElem?_cons_zero]

theorem dropWhile_ne_of_Contains (s : Str) (sep : Char) :
    Contains s sep = true ↔ s.dropWhile (fun c => c != sep) ≠ [] := by
  induction s with
  | nil => simp [Contains]
  | cons c cs ih =>
    by_cases hc : c = sep
    · have hb : (c != sep) = false := by simp [hc]
      simp only [List.dropWhile_cons, hb, Bool.false_eq_true, ↓reduceIte]
      simp [Contains, hc]
    · have hb : (c != sep) = true := by simp [hc]
      simp only [List.dropWhile_cons, hb, ↓reduceIte]
      rw [← ih]
      simp [Contains, hc]

theorem Split_field1_of_Contains (s : Str) (sep : Char) (h : Contains s sep = true) :
    (Split s sep)[1]?
      = some (((s.dropWhile (fun c => c != sep)).drop 1).takeWhile (fun c => c != sep)) := by
  rw [Split_field1]
  have hne := (dropWhile_ne_of_Contains s sep).mp h
  cases hd : s.dropWhile (fun c => c != sep) with
  | nil => exact absurd hd hne
  | cons c rest => rfl

theorem Split_field1_of_not_Contains (s : Str) (sep : Char) (h : Contains s sep = false) :
    (Split s sep)[1]? = none := by
  rw [Split_field1]
  have hnil : s.dropWhile (fun c => c != sep) = [] := by
    by_contra hne
    have := (dropWhile_ne_of_Contains s sep).mpr hne
    rw [h] at this
    cases this
  rw [hnil]

theorem mapGet?_mapSet {β : Type} (m : List (Str × β)) (k k' : Str) (v : β) :
    mapGet? (mapSet m k v) k' = if k = k' then some v else mapGet? m k' := by
  induction m with
  | nil => simp [mapSet, mapGet?]
  | cons e rest ih =>
    obtain ⟨k₀, v₀⟩ := e
    unfold mapSet
    by_cases h0 : k₀ = k
    · rw [if_pos h0]
      subst h0
      by_cases hk : k₀ = k'
      · simp [mapGet?, hk]
      · simp [mapGet?, hk]
    · rw [if_neg h0]
      by_cases hk : k₀ = k'
      · have hne : ¬ k = k' := fun h => h0 (hk.trans h.symm)
        simp [mapGet?, hk, hne]
      · rw [mapGet?, if_neg hk, ih, mapGet?, if_neg hk]

theorem lastDataLine_cons (line : Str) (rest : List Str) (k : Str) :
    lastDataLine (line :: rest) k
      = match lastDataLine rest k with
        | some l => some l
        | none => if dataKey line = k then some line else none := by
  unfold lastDataLine
  rw [List.reverse_cons, List.find?_append]
  cases rest.reverse.find? (fun line => dataKey line == k) with
  | some l => rfl
  | none =>
    by_cases h : dataKey line = k
    · have hb : (dataKey line == k) = true := by simp [h]
      simp [List.find?, hb, h]
    · have hb : (dataKey line == k) = false := by simp [h]
      simp [List.find?, hb, h]

theorem parseDataLoop_ok (content : List Str) (ret : List (Str × Str))
    (h : ∀ line ∈ content, Contains line '=' = true) :
    ∃ m, parseDataLoop content ret = .ok m
      ∧ ∀ k, mapGet? m k
          = match lastDataLine content k with
            | some l => some (dataValue l)
            | none => mapGet? ret k := by
  induction content generalizing ret with
  | nil => exact ⟨ret, rfl, fun k => rfl⟩
  | cons line rest ih =>
    have hl : Contains line '=' = true := h line (List.mem_cons_self _ _)
    have hr : ∀ l ∈ rest, Contains l '=' = true :=
      fun l hm => h l (List.mem_cons_of_mem _ hm)
    obtain ⟨m, hm, hk⟩ := ih (mapSet ret (dataKey line) (dataValue line)) hr
    refine ⟨m, ?_, ?_⟩
    · unfold parseDataLoop
      simp only [Split_field1_of_Contains line '=' hl, Split_head]
      exact hm
    · intro k
      rw [hk k, lastDataLine_cons, mapGet?_mapSet]
      cases lastDataLine rest k with
      | some l => rfl
      | none =>
        by_cases hkey : dataKey line = k
        · simp [hkey]
        · simp [hkey]

theorem parseDataLoop_fails (content : List Str) (ret : List (Str × Str))
    (h : ∃ line ∈ content, Contains line '=' = false) :
    parseDataLoop content ret = .error .indexOutOfRange := by
  induction content generalizing ret with
  | nil => obtain ⟨line, hm, _⟩ := h; cases hm
  | cons line rest ih =>
    unfold parseDataLoop
    by_cases hl : Contains line '=' = true
    · simp only [Split_field1_of_Contains line '=' hl]
      apply ih
      obtain ⟨l, hm, hc⟩ := h
      rcases List.mem_cons.mp hm with h1 | h1
      · subst h1; rw [hl] at hc; cases hc
      · exact ⟨l, h1, hc⟩
    · have hl' : Contains line '=' = false := by simpa using hl
      simp only [Split_field1_of_not_Contains line '=' hl']

theorem lastDataLine_isSome (content : List Str) (k : Str) :
    (lastDataLine content k).isSome = true ↔ ∃ line ∈ content, dataKey line = k := by
  unfold lastDataLine
  rw [List.find?_isSome]
  simp

/-- C13, as stated, fails: the line `k=a=b` contains `=` and the whole text
after its first `=` is `a=b`, yet `parseDataSection` maps `k` to `a`. -/
theorem C13_value_stops_at_second_equals :
    Contains "k=a=b".toList '=' = true
    ∧ dataKey "k=a=b".toList = "k".toList
    ∧ dataRest "k=a=b".toList = "a=b".toList
    ∧ parseDataSection ["k=a=b".toList] = .ok [("k".toList, "a".toList)]
    ∧ parseDataSection ["k=a=b".toList] ≠ .ok [("k".toList, "a=b".toList)] := by
  refine ⟨?_, ?_, ?_, ?_, ?_⟩ <;> decide

/-- C13, amended: for every `.data` body in which each line contains `=`,
`parseDataSection` returns a map whose keys are exactly the texts before the
first `=` of the lines and that maps each key to the text after the first
`=`, up to the next `=` or the end of the line, of the last line having that
key. -/
theorem C13_data_section_mapping (content : List Str)
    (h : ∀ line ∈ content, Contains line '=' = true) :
    ∃ m, parseDataSection content = .ok m
      ∧ (∀ k, mapGet? m k = (lastDataLine content k).map dataValue)
      ∧ (∀ k, (mapGet? m k).isSome = true ↔ ∃ line ∈ content, dataKey line = k) := by
  obtain ⟨m, hm, hk⟩ := parseDataLoop_ok content [] h
  have hmap : ∀ k, mapGet? m k = (lastDataLine content k).map dataValue := by
    intro k
    rw [hk k]
    cases lastDataLine content k with
    | some l => rfl
    | none => rfl
  refine ⟨m, hm, hmap, ?_⟩
  intro k
  rw [hmap k, Option.isSome_map']
  exact lastDataLine_isSome content k

/-- C13: the amended theorem applied to the body `x=5`, `k=a=b`, `x=7`. -/
theorem C13_data_section_mapping_witness :
    ∃ m, parseDataSection ["x=5".toList, "k=a=b".toList, "x=7".toList] = .ok m
      ∧ (∀ k, mapGet? m k
          = (lastDataLine ["x=5".toList, "k=a=b".toList, "x=7".toList] k).map dataValue)
      ∧ (∀ k, (mapGet? m k).isSome = true
          ↔ ∃ line ∈ ["x=5".toList, "k=a=b".toList, "x=7".toList], dataKey line = k) :=
  C13_data_section_mapping ["x=5".toList, "k=a=b".toList, "x=7".toList] (by decide)

/-- C14: `parseDataSection` returns no map exactly when some line of the body
contains no `=`; it then fails by the panic of reading field 1 of the split
line (index out of range).  So `CompileShellcode`, on a text with a valid
entrypoint whose `.data` body has such a line, fails the same way and hands no
program to the encoder: no blob. -/
theorem C14_malformed_data_line (content : List Str) :
    ((∀ m, parseDataSection content ≠ .ok m)
      ↔ ∃ line ∈ content, Contains line '=' = false)
    ∧ ((∃ line ∈ content, Contains line '=' = false)
        → parseDataSection content = .error .indexOutOfRange)
    ∧ ∀ (file : Option Str) (instructions registers : List (Str × Int))
        (rangeOrder : SymTable → SymTable) (fileLines : List Str)
        (rawSections rawFunctions : SymTable) (entryPointName : Str) (rest : List Str)
        (entry dataSymbol : rawSymbol),
        getFileLines file = .ok fileLines →
        extractRawSymbols fileLines = .ok (rawSections, rawFunctions) →
        (mapRead zeroSymbol rawSections ".text".toList).Content = entryPointName :: rest →
        mapGet? rawFunctions entryPointName = some entry →
        mapGet? rawSections ".data".toList = some dataSymbol →
        dataSymbol.Content = content →
        (∃ line ∈ content, Contains line '=' = false) →
          CompileShellcode file instructions registers rangeOrder
            = .error .indexOutOfRange := by
  refine ⟨⟨?_, ?_⟩, parseDataLoop_fails content [], ?_⟩
  · intro hno
    by_contra hall
    have hall' : ∀ line ∈ content, Contains line '=' = true := by
      intro line hm
      by_contra hc
      exact hall ⟨line, hm, by simpa using hc⟩
    obtain ⟨m, hm, _⟩ := parseDataLoop_ok content [] hall'
    exact hno m hm
  · intro hex m hm
    have := parseDataLoop_fails content [] hex
    unfold parseDataSection at hm
    rw [this] at hm
    cases hm
  · intro file instructions registers rangeOrder fileLines rawSections rawFunctions
      entryPointName rest entry dataSymbol hl hx hc he hd hcont hex
    have hdv : dataValuesOf rawSections = .error .indexOutOfRange := by
      unfold dataValuesOf
      rw [hd]
      simp only
      rw [hcont]
      exact parseDataLoop_fails content [] hex
    unfold CompileShellcode
    rw [hl]
    simp only
    unfold assembleShellcode
    rw [hx]
    simp only [hc, he, hdv]

/-- C14: the theorem applied to the body `x` of the `.data` section of
`malformedData`. -/
theorem C14_malformed_data_line_witness :
    CompileShellcode (some malformedData) exampleInstructions exampleRegisters id
      = .error .indexOutOfRange :=
  (C14_malformed_data_line ["x".toList]).2.2 (some malformedData) exampleInstructions
    exampleRegisters id
    ["section .text:".toList, "  _main".toList, "section .data:".toList, "  x".toList,
      "_main:".toList, "  mov r0 r1".toList]
    [(".text".toList, ⟨0, ["_main".toList]⟩), (".data".toList, ⟨1, ["x".toList]⟩)]
    [("_main".toList, ⟨0, ["mov r0 r1".toList]⟩)]
    "_main".toList [] ⟨0, ["mov r0 r1".toList]⟩ ⟨1, ["x".toList]⟩
    (by decide) (by decide) (by decide) (by decide) (by decide) rfl (by decide)

/-! ## Operand tokens -/

theorem Split_of_not_Contains (s : Str) (sep : Char) (h : Contains s sep = false) :
    Split s sep = [s] := by
  induction s with
  | nil => rfl
  | cons c cs ih =>
    have hc : ¬ c = sep := by
      intro hc
      simp [Contains, hc] at h
    have hcs : Contains cs sep = false := by
      simp only [Contains, List.any_cons, Bool.or_eq_false_iff] at h
      exact h.2
    rw [Split, if_neg hc, ih hcs]

theorem Split_append_sep (f k : Str) (sep : Char) (h : Contains f sep = false) :
    Split (f ++ sep :: k) sep = f :: Split k sep := by
  induction f with
  | nil =>
    show Split (sep :: k) sep = [] :: Split k sep
    rw [Split, if_pos rfl]
  | cons c cs ih =>
    have hc : ¬ c = sep := by
      intro hc
      simp [Contains, hc] at h
    have hcs : Contains cs sep = false := by
      simp only [Contains, List.any_cons, Bool.or_eq_false_iff] at h
      exact h.2
    show Split (c :: (cs ++ sep :: k)) sep = (c :: cs) :: Split k sep
    rw [Split, if_neg hc, ih hcs]

theorem Contains_append_sep (f k : Str) (sep : Char) :
    Contains (f ++ sep :: k) sep = true := by
  simp [Contains]

theorem HasPrefix_nil (s : Str) : HasPrefix s [] = true := by
  cases s <;> rfl

theorem HasPrefix_single (s : Str) (p : Char) :
    HasPrefix s [p] = true ↔ ∃ cs, s = p :: cs := by
  cases s with
  | nil => simp [HasPrefix]
  | cons c cs =>
    have e : HasPrefix (c :: cs) [p] = (p == c && HasPrefix cs []) := rfl
    rw [e, HasPrefix_nil, Bool.and_true, beq_iff_eq]
    constructor
    · intro h
      exact ⟨cs, by rw [h]⟩
    · rintro ⟨cs', h⟩
      simp only [List.cons.injEq] at h
      exact h.1.symm

theorem HasPrefix_underscore_append (f rest : Str) (h : HasPrefix f "_".toList = true) :
    HasPrefix (f ++ rest) "_".toList = true := by
  obtain ⟨cs, hcs⟩ := (HasPrefix_single f '_').mp h
  subst hcs
  exact (HasPrefix_single _ '_').mpr ⟨cs ++ rest, rfl⟩

theorem HasPrefix_dollar_of_underscore (tok : Str) (h : HasPrefix tok "_".toList = true) :
    HasPrefix tok "$".toList = false := by
  obtain ⟨cs, hcs⟩ := (HasPrefix_single tok '_').mp h
  subst hcs
  cases hd : HasPrefix ('_' :: cs) "$".toList with
  | false => rfl
  | true =>
    obtain ⟨cs', hcs'⟩ := (HasPrefix_single _ '$').mp hd
    simp only [List.cons.injEq] at hcs'
    exact absurd hcs'.1 (by decide)

theorem resolveOperand_offset (R : List (Str × Int)) (D : List (Str × Str)) (F : SymTable)
    (acc : List Operand) (f k : Str) (entry : rawSymbol) (n : Int)
    (hf : HasPrefix f "_".toList = true) (hfp : Contains f '+' = false)
    (hk : Contains k '+' = false) (hr : mapGet? R (f ++ '+' :: k) = none)
    (he : mapGet? F f = some entry) (ha : Atoi k = (n, false)) :
    resolveOperand R D F acc (f ++ '+' :: k)
      = acc ++ [.int (wrapInt64 (entry.Address + n))] := by
  unfold resolveOperand
  rw [hr]
  simp only
  rw [if_neg (by rw [HasPrefix_dollar_of_underscore _ (HasPrefix_underscore_append f _ hf)]
                 exact Bool.false_ne_true),
    if_pos (HasPrefix_underscore_append f _ hf), if_pos (Contains_append_sep f k '+'),
    Split_append_sep f k '+' hfp, Split_of_not_Contains k '+' hk]
  simp only [List.headD_cons, List.getD_cons_succ, List.getD_cons_zero, mapRead, he, ha]

theorem wrapInt64_of_range (z : Int) (h1 : -(2 ^ 63 : Int) ≤ z) (h2 : z < 2 ^ 63) :
    wrapInt64 z = z := by
  unfold wrapInt64
  rw [Int.emod_eq_of_lt (by omega) (by omega)]
  omega

theorem resolveOperand_bare (R : List (Str × Int)) (D : List (Str × Str)) (F : SymTable)
    (acc : List Operand) (tok : Str) (h : isBareReference R tok = true) :
    resolveOperand R D F acc tok = acc := by
  unfold isBareReference at h
  simp only [Bool.and_eq_true, Option.isNone_iff_eq_none, Bool.not_eq_true'] at h
  obtain ⟨⟨hr, hp⟩, hc⟩ := h
  unfold resolveOperand
  rw [hr]
  simp only
  rw [if_neg (by rw [HasPrefix_dollar_of_underscore _ hp]; exact Bool.false_ne_true),
    if_pos hp, if_neg (by rw [hc]; exact Bool.false_ne_true)]

theorem resolveOperand_other (R : List (Str × Int)) (D : List (Str × Str)) (F : SymTable)
    (acc : List Operand) (tok : Str) (h : isBareReference R tok = false) :
    ∃ op, resolveOperand R D F acc tok = acc ++ [op] := by
  unfold resolveOperand
  cases hr : mapGet? R tok with
  | some reg => exact ⟨_, rfl⟩
  | none =>
    simp only
    by_cases hd : HasPrefix tok "$".toList = true
    · rw [if_pos hd]
      cases mapGet? D (tok.drop 1) with
      | some v => exact ⟨_, rfl⟩
      | none => exact ⟨_, rfl⟩
    · rw [if_neg hd]
      by_cases hp : HasPrefix tok "_".toList = true
      · rw [if_pos hp]
        by_cases hc : Contains tok '+' = true
        · rw [if_pos hc]
          exact ⟨_, rfl⟩
        · exfalso
          have hc' : Contains tok '+' = false := by simpa using hc
          unfold isBareReference at h
          rw [hr, hp, hc'] at h
          cases h
      · rw [if_neg hp]
        rcases hat : Atoi tok with ⟨i, b⟩
        cases b with
        | false => exact ⟨_, rfl⟩
        | true => exact ⟨_, rfl⟩

theorem resolveOperands_length (R : List (Str × Int)) (D : List (Str × Str)) (F : SymTable)
    (acc : List Operand) (toks : List Str) :
    (resolveOperands R D F acc toks).length + (toks.filter (isBareReference R)).length
      = acc.length + toks.length := by
  induction toks generalizing acc with
  | nil => simp [resolveOperands]
  | cons tok rest ih =>
    simp only [resolveOperands]
    by_cases hb : isBareReference R tok = true
    · rw [resolveOperand_bare R D F acc tok hb, List.filter_cons_of_pos hb]
      have := ih acc
      simp only [List.length_cons]
      omega
    · have hb' : isBareReference R tok = false := by simpa using hb
      obtain ⟨op, hop⟩ := resolveOperand_other R D F acc tok hb'
      rw [hop, List.filter_cons_of_neg hb]
      have := ih (acc ++ [op])
      simp only [List.length_append, List.length_cons, List.length_nil] at this ⊢
      omega

/-- C15, as stated, fails, in two ways.  In `plusInName` the token `_a+b+3` is
the function key `_a+b` (address 1), then `+`, then `3`; the code splits at
the first `+`, reads the address of `_a` (0) and the offset of `b` (0), and
appends 0, not 1 + 3.  In `largeOffset` the token is `_b` (address 1), `+` and
`9223372036854775807`, which `Atoi` parses; the sum wraps in `int64` and the
operand is -9223372036854775808, not 1 + 9223372036854775807. -/
theorem C15_offset_operand_is_not_always_the_sum :
    (getFileLines (some plusInName)).bind extractRawSymbols
        = .ok ([(".text".toList, ⟨0, ["_a".toList]⟩)],
            [("_a".toList, ⟨0, ["mov r0 r1".toList]⟩),
             ("_a+b".toList, ⟨1, ["mov r0 _a+b+3".toList]⟩)])
    ∧ CompileShellcode (some plusInName) exampleInstructions exampleRegisters id
        = .ok [.int64 0, .slice [.int 1, .int 0, .int 1], .slice [.int 1, .int 0, .int 0]]
    ∧ (getFileLines (some largeOffset)).bind extractRawSymbols
        = .ok ([(".text".toList, ⟨0, ["_a".toList]⟩)],
            [("_a".toList, ⟨0, ["mov r0 r1".toList]⟩),
             ("_b".toList, ⟨1, ["mov r0 _b+9223372036854775807".toList]⟩)])
    ∧ Atoi "9223372036854775807".toList = (9223372036854775807, false)
    ∧ CompileShellcode (some largeOffset) exampleInstructions exampleRegisters id
        = .ok [.int64 0, .slice [.int 1, .int 0, .int 1],
            .slice [.int 1, .int 0, .int (-9223372036854775808)]] := by
  refine ⟨?_, ?_, ?_, ?_, ?_⟩ <;> decide

/-- C15, amended: a body line whose fields are the mnemonic, the tokens `pre`,
a token `f+k` and the tokens `post`, where `f` starts with `_` and contains no
`+`, the whole token is no register name, `f` is a key of the function table,
`k` contains no `+` and `Atoi` parses `k` as `n` without error, is assembled
with the operand `Address of f + n`, wrapped to `int64`, at the place of the
token; the wrapped sum is the sum itself when it lies in the range of
`int64`. -/
theorem C15_function_reference_with_offset (instructions registers : List (Str × Int))
    (dataValues : List (Str × Str)) (rawFunctions : SymTable)
    (instr mnemonic f k : Str) (pre post : List Str) (entry : rawSymbol) (n : Int)
    (hs : Split instr ' ' = mnemonic :: (pre ++ (f ++ '+' :: k) :: post))
    (hf : HasPrefix f "_".toList = true) (hfp : Contains f '+' = false)
    (hk : Contains k '+' = false)
    (hr : mapGet? registers (f ++ '+' :: k) = none)
    (he : mapGet? rawFunctions f = some entry)
    (ha : Atoi k = (n, false)) :
    resolveOperand registers dataValues rawFunctions [] (f ++ '+' :: k)
        = [.int (wrapInt64 (entry.Address + n))]
    ∧ compileInstruction instructions registers dataValues rawFunctions instr
        = resolveOperands registers dataValues rawFunctions
              [.int (mapRead 0 instructions mnemonic)] pre
            ++ [.int (wrapInt64 (entry.Address + n))]
            ++ resolveOperands registers dataValues rawFunctions [] post
    ∧ (-(2 ^ 63 : Int) ≤ entry.Address + n → entry.Address + n < 2 ^ 63 →
        wrapInt64 (entry.Address + n) = entry.Address + n) := by
  have h1 := resolveOperand_offset registers dataValues rawFunctions [] f k entry n
    hf hfp hk hr he ha
  simp only [List.nil_append] at h1
  refine ⟨h1, ?_, wrapInt64_of_range _⟩
  unfold compileInstruction
  rw [hs]
  simp only [List.headD_cons, List.tail_cons]
  rw [resolveOperands_split, h1]

/-- C15: the amended theorem applied to the line `mov r0 _b+2` with `_b` at
address 1. -/
theorem C15_function_reference_with_offset_witness :
    resolveOperand exampleRegisters [] [("_b".toList, ⟨1, []⟩)] [] "_b+2".toList
        = [.int (wrapInt64 (1 + 2))]
    ∧ compileInstruction exampleInstructions exampleRegisters []
          [("_b".toList, ⟨1, []⟩)] "mov r0 _b+2".toList
        = resolveOperands exampleRegisters [] [("_b".toList, ⟨1, []⟩)]
              [.int (mapRead 0 exampleInstructions "mov".toList)] ["r0".toList]
            ++ [.int (wrapInt64 (1 + 2))]
            ++ resolveOperands exampleRegisters [] [("_b".toList, ⟨1, []⟩)] [] []
    ∧ (-(2 ^ 63 : Int) ≤ 1 + 2 → (1 : Int) + 2 < 2 ^ 63 → wrapInt64 (1 + 2) = 1 + 2) :=
  C15_function_reference_with_offset exampleInstructions exampleRegisters []
    [("_b".toList, ⟨1, []⟩)] "mov r0 _b+2".toList "mov".toList "_b".toList "2".toList
    ["r0".toList] [] ⟨1, []⟩ 2 (by decide) (by decide) (by decide) (by decide)
    (by decide) (by decide) (by decide)

/-! ## Fields of an instruction line -/

theorem Split_joinFields (tok : Str) (rest : List Str)
    (h : ∀ t ∈ tok :: rest, Contains t ' ' = false) :
    Split (joinFields (tok :: rest)) ' ' = tok :: rest := by
  induction rest generalizing tok with
  | nil => exact Split_of_not_Contains tok ' ' (h tok (List.mem_cons_self _ _))
  | cons t2 r ih =>
    show Split (tok ++ ' ' :: joinFields (t2 :: r)) ' ' = tok :: t2 :: r
    rw [Split_append_sep tok _ ' ' (h tok (List.mem_cons_self _ _)),
      ih t2 (fun t hm => h t (List.mem_cons_of_mem _ hm))]

theorem joinFields_cons_cons (c : Char) (p : Str) (ps : List Str) :
    joinFields ((c :: p) :: ps) = c :: joinFields (p :: ps) := by
  cases ps with
  | nil => rfl
  | cons q qs => rfl

theorem joinFields_Split (s : Str) : joinFields (Split s ' ') = s := by
  induction s with
  | nil => rfl
  | cons c cs ih =>
    rw [Split]
    by_cases hc : c = ' '
    · rw [if_pos hc]
      cases hs : Split cs ' ' with
      | nil => exact absurd hs (Split_ne_nil cs ' ')
      | cons p ps =>
        rw [hs] at ih
        show [] ++ ' ' :: joinFields (p :: ps) = c :: cs
        rw [ih, hc]
        rfl
    · rw [if_neg hc]
      cases hs : Split cs ' ' with
      | nil => exact absurd hs (Split_ne_nil cs ' ')
      | cons p ps =>
        rw [hs] at ih
        simp only
        rw [joinFields_cons_cons, ih]

theorem Split_no_sep (s : Str) (sep : Char) :
    ∀ t ∈ Split s sep, Contains t sep = false := by
  induction s with
  | nil =>
    intro t ht
    simp only [Split, List.mem_singleton] at ht
    subst ht
    rfl
  | cons c cs ih =>
    intro t ht
    rw [Split] at ht
    by_cases hc : c = sep
    · rw [if_pos hc] at ht
      rcases List.mem_cons.mp ht with h1 | h1
      · subst h1
        rfl
      · exact ih t h1
    · rw [if_neg hc] at ht
      cases hs : Split cs sep with
      | nil => exact absurd hs (Split_ne_nil cs sep)
      | cons p ps =>
        rw [hs] at ht ih
        simp only at ht
        rcases List.mem_cons.mp ht with h1 | h1
        · subst h1
          have hp := ih p (List.mem_cons_self _ _)
          simp only [Contains, List.any_cons, Bool.or_eq_false_iff] at hp ⊢
          exact ⟨by simpa using hc, hp⟩
        · exact ih t (List.mem_cons_of_mem _ h1)

/-- C16, as stated, fails: with the maps of the example scenario the line
`mov r0 r1` is assembled to `[1, 0, 1]`, the same line with two spaces after
`mov` to `[1, "", 0, 1]` (an empty-string operand), and the same line with a
tab after `mov` to `[0, 1]` (the mnemonic is then `mov<tab>r0`). -/
theorem C16_whitespace_changes_the_instruction :
    compileInstruction exampleInstructions exampleRegisters [] [] "mov r0 r1".toList
        = [.int 1, .int 0, .int 1]
    ∧ compileInstruction exampleInstructions exampleRegisters [] [] "mov  r0 r1".toList
        = [.int 1, .str [], .int 0, .int 1]
    ∧ compileInstruction exampleInstructions exampleRegisters [] [] "mov\tr0 r1".toList
        = [.int 0, .int 1]
    ∧ CompileShellcode (some "section .text:\n  _main\n_main:\n  mov  r0 r1\n".toList)
          exampleInstructions exampleRegisters id
        = .ok [.int64 0, .slice [.int 1, .str [], .int 0, .int 1]] := by
  refine ⟨?_, ?_, ?_, ?_⟩ <;> decide

/-- C16, amended: an instruction line is split at every single space.  Every
line is, in one way only, a list of fields without space joined by one space
each (two spaces in a row enclose an empty field, and a tab is part of a
field); the mnemonic is the first field and every further field is one operand
token, in order.  An empty field, when the empty string is no register name,
is assembled as an empty-string operand. -/
theorem C16_fields_are_split_at_single_spaces (instructions registers : List (Str × Int))
    (dataValues : List (Str × Str)) (rawFunctions : SymTable) (instr : Str) :
    joinFields (Split instr ' ') = instr
    ∧ (∀ t ∈ Split instr ' ', Contains t ' ' = false)
    ∧ (∀ (mnemonic : Str) (ops : List Str),
        (∀ t ∈ mnemonic :: ops, Contains t ' ' = false) →
        instr = joinFields (mnemonic :: ops) →
          Split instr ' ' = mnemonic :: ops
          ∧ compileInstruction instructions registers dataValues rawFunctions instr
            = resolveOperands registers dataValues rawFunctions
                [.int (mapRead 0 instructions mnemonic)] ops)
    ∧ (mapGet? registers [] = none →
        ∀ acc, resolveOperand registers dataValues rawFunctions acc [] = acc ++ [.str []]) := by
  refine ⟨joinFields_Split instr, Split_no_sep instr ' ', ?_, ?_⟩
  · intro mnemonic ops hall hi
    have hsp : Split instr ' ' = mnemonic :: ops := by
      rw [hi]
      exact Split_joinFields mnemonic ops hall
    refine ⟨hsp, ?_⟩
    unfold compileInstruction
    rw [hsp]
    rfl
  · intro hr acc
    unfold resolveOperand
    rw [hr]
    rfl

/-- C16: the amended theorem applied to the line `mov  r0 r1` (two spaces
after `mov`), whose fields are `mov`, the empty field, `r0` and `r1`. -/
theorem C16_fields_are_split_at_single_spaces_witness :
    Split "mov  r0 r1".toList ' ' = ["mov".toList, [], "r0".toList, "r1".toList]
    ∧ compileInstruction exampleInstructions exampleRegisters [] [] "mov  r0 r1".toList
        = resolveOperands exampleRegisters [] []
            [.int (mapRead 0 exampleInstructions "mov".toList)]
            [[], "r0".toList, "r1".toList] :=
  (C16_fields_are_split_at_single_spaces exampleInstructions exampleRegisters [] []
    "mov  r0 r1".toList).2.2.1 "mov".toList [[], "r0".toList, "r1".toList]
    (by decide) (by decide)

/-! ## Missing entrypoint declaration -/

/-- C17, evaluated on the code: `CompileShellcode` panics (index out of range
at `Content[0]`) on the text `noTextSection`, which has no `.text` section,
and on the text `emptyTextSection`, whose `.text` section has an empty body;
it does not return the error of the entrypoint check. -/
theorem C17_missing_text_section_panics :
    CompileShellcode (some noTextSection) exampleInstructions exampleRegisters id
        = .error .indexOutOfRange
    ∧ CompileShellcode (some emptyTextSection) exampleInstructions exampleRegisters id
        = .error .indexOutOfRange
    ∧ (Failure.indexOutOfRange ≠ .error "compiler: No entrypoint found") := by
  refine ⟨?_, ?_, ?_⟩ <;> decide

/-! ## Ordered traversal -/

theorem CompileShellcode_ok_inv (file : Option Str) (I R : List (Str × Int))
    (rangeOrder : SymTable → SymTable) (fileLines : List Str)
    (rawSections rawFunctions : SymTable) (shellcode : List Item)
    (hl : getFileLines file = .ok fileLines)
    (hx : extractRawSymbols fileLines = .ok (rawSections, rawFunctions))
    (h : CompileShellcode file I R rangeOrder = .ok shellcode) :
    ∃ (D : List (Str × Str)) (entry : rawSymbol), dataValuesOf rawSections = .ok D
      ∧ shellcode = .int64 entry.Address
          :: flattenFunctions I R D rawFunctions [] (rangeOrder rawFunctions) := by
  unfold CompileShellcode at h
  rw [hl] at h
  simp only at h
  unfold assembleShellcode at h
  rw [hx] at h
  simp only at h
  cases hc : (mapRead zeroSymbol rawSections ".text".toList).Content with
  | nil => rw [hc] at h; cases h
  | cons entryPointName rest =>
    rw [hc] at h
    simp only at h
    cases he : mapGet? rawFunctions entryPointName with
    | none => rw [he] at h; cases h
    | some entry =>
      rw [he] at h
      simp only at h
      cases hd : dataValuesOf rawSections with
      | error e => rw [hd] at h; cases h
      | ok D =>
        rw [hd] at h
        simp only [Except.ok.injEq] at h
        refine ⟨D, entry, rfl, ?_⟩
        rw [← h, flattenFunctions_append]
        rfl

theorem flattenFunctions_prefixAddresses (I R : List (Str × Int)) (D : List (Str × Str))
    (F : SymTable) (start : Nat) (fb : List (Str × List Str)) :
    flattenFunctions I R D F [] (prefixAddresses start fb) = streamOf I R D F fb := by
  induction fb generalizing start with
  | nil => rfl
  | cons b rest ih =>
    obtain ⟨key, body⟩ := b
    simp only [prefixAddresses, flattenFunctions, streamOf, List.nil_append]
    rw [flattenFunctions_append, ih]

theorem streamOf_append (I R : List (Str × Int)) (D : List (Str × Str)) (F : SymTable)
    (pre post : List (Str × List Str)) :
    streamOf I R D F (pre ++ post) = streamOf I R D F pre ++ streamOf I R D F post := by
  induction pre with
  | nil => rfl
  | cons b rest ih =>
    obtain ⟨key, body⟩ := b
    show compileFunction I R D F body ++ streamOf I R D F (rest ++ post) = _
    rw [ih]
    simp [streamOf]

theorem compileFunction_length (I R : List (Str × Int)) (D : List (Str × Str))
    (F : SymTable) (body : List Str) :
    (compileFunction I R D F body).length = body.length := by
  induction body with
  | nil => rfl
  | cons l rest ih => simp [compileFunction, ih]

theorem compileFunction_getElem? (I R : List (Str × Int)) (D : List (Str × Str))
    (F : SymTable) (body : List Str) (j : Nat) (line : Str) (h : body[j]? = some line) :
    (compileFunction I R D F body)[j]? = some (.slice (compileInstruction I R D F line)) := by
  induction body generalizing j with
  | nil => simp at h
  | cons l rest ih =>
    cases j with
    | zero =>
      simp only [List.getElem?_cons_zero, Option.some.injEq] at h
      subst h
      simp only [compileFunction, List.getElem?_cons_zero]
    | succ j =>
      simp only [List.getElem?_cons_succ] at h
      simp only [compileFunction, List.getElem?_cons_succ]
      exact ih j h

theorem streamOf_length (I R : List (Str × Int)) (D : List (Str × Str)) (F : SymTable)
    (fb : List (Str × List Str)) :
    (streamOf I R D F fb).length = bodyLengths fb := by
  induction fb with
  | nil => rfl
  | cons b rest ih =>
    obtain ⟨key, body⟩ := b
    simp [streamOf, bodyLengths, compileFunction_length, ih]

theorem mapGet?_prefixAddresses_absent (start : Nat) (fb : List (Str × List Str)) (k : Str)
    (h : k ∉ fb.map Prod.fst) : mapGet? (prefixAddresses start fb) k = none := by
  induction fb generalizing start with
  | nil => rfl
  | cons b rest ih =>
    obtain ⟨key, body⟩ := b
    simp only [List.map_cons, List.mem_cons, not_or] at h
    simp only [prefixAddresses, mapGet?]
    rw [if_neg (fun heq => h.1 heq.symm)]
    exact ih _ h.2

theorem mapGet?_prefixAddresses (start : Nat) (pre post : List (Str × List Str))
    (key : Str) (body : List Str) (h : key ∉ pre.map Prod.fst) :
    mapGet? (prefixAddresses start (pre ++ (key, body) :: post)) key
      = some { Address := ((start + bodyLengths pre : Nat) : Int), Content := body } := by
  induction pre generalizing start with
  | nil => simp [prefixAddresses, mapGet?, bodyLengths]
  | cons b rest ih =>
    obtain ⟨k₀, b₀⟩ := b
    simp only [List.map_cons, List.mem_cons, not_or] at h
    show mapGet? ((k₀, { Address := (start : Int), Content := b₀ })
        :: prefixAddresses (start + b₀.length) (rest ++ (key, body) :: post)) key = _
    rw [mapGet?, if_neg (fun heq => h.1 heq.symm), ih _ h.2]
    simp only [bodyLengths, Nat.add_assoc]

theorem extractRawSymbols_functions (fileLines : List Str) (rawSections rawFunctions : SymTable)
    (hx : extractRawSymbols fileLines = .ok (rawSections, rawFunctions))
    (hnd : ((functionBlocks (blocksOf fileLines)).map Prod.fst).Nodup) :
    rawFunctions = prefixAddresses 0 (functionBlocks (blocksOf fileLines)) := by
  rw [extractRawSymbols_eq_registerAll] at hx
  cases hr : registerAll ⟨[], [], 0⟩ (blocksOf fileLines) with
  | error e => rw [hr] at hx; cases hx
  | ok t =>
    rw [hr] at hx
    simp only [tablesOf, Except.ok.injEq, Prod.mk.injEq] at hx
    rw [← hx.2, registerAll_functions _ _ t hr hnd (fun _ _ => rfl)]
    rfl

/-- Let the keys of the function table of the text (the names that line 106
classifies as functions) be pairwise distinct and let the flattening loop
visit the function table in source order.  Then, whenever `CompileShellcode`
hands a program to the encoder, the instruction stream is the concatenation,
in source order, of one block per entry holding one instruction per body
line; its length is the sum of the body lengths; and every entry's `Address`
is the number of stream elements before its block. -/
theorem stream_in_source_order (file : Option Str)
    (instructions registers : List (Str × Int)) (rangeOrder : SymTable → SymTable)
    (fileLines : List Str) (rawSections rawFunctions : SymTable) (shellcode : List Item)
    (hl : getFileLines file = .ok fileLines)
    (hx : extractRawSymbols fileLines = .ok (rawSections, rawFunctions))
    (hnd : ((functionBlocks (blocksOf fileLines)).map Prod.fst).Nodup)
    (hord : rangeOrder rawFunctions
      = prefixAddresses 0 (functionBlocks (blocksOf fileLines)))
    (h : CompileShellcode file instructions registers rangeOrder = .ok shellcode) :
    ∃ dataValues, dataValuesOf rawSections = .ok dataValues
      ∧ shellcode.tail
          = streamOf instructions registers dataValues rawFunctions
              (functionBlocks (blocksOf fileLines))
      ∧ shellcode.tail.length = bodyLengths (functionBlocks (blocksOf fileLines))
      ∧ (∀ (pre post : List (Str × List Str)) (key : Str) (body : List Str),
          functionBlocks (blocksOf fileLines) = pre ++ (key, body) :: post →
            mapGet? rawFunctions key
                = some { Address := (bodyLengths pre : Int), Content := body }
            ∧ shellcode.tail
                = streamOf instructions registers dataValues rawFunctions pre
                  ++ compileFunction instructions registers dataValues rawFunctions body
                  ++ streamOf instructions registers dataValues rawFunctions post
            ∧ (streamOf instructions registers dataValues rawFunctions pre).length
                = bodyLengths pre
            ∧ (compileFunction instructions registers dataValues rawFunctions body).length
                = body.length
            ∧ ∀ (j : Nat) (line : Str), body[j]? = some line →
                shellcode.tail[bodyLengths pre + j]?
                  = some (.slice (compileInstruction instructions registers dataValues
                      rawFunctions line)))
      ∧ AddressConsistent instructions registers dataValues rawFunctions shellcode.tail := by
  obtain ⟨D, entry, hd, hsc⟩ := CompileShellcode_ok_inv file instructions registers
    rangeOrder fileLines rawSections rawFunctions shellcode hl hx h
  have hfun := extractRawSymbols_functions fileLines rawSections rawFunctions hx hnd
  have htail : shellcode.tail
      = streamOf instructions registers D rawFunctions
          (functionBlocks (blocksOf fileLines)) := by
    rw [hsc, hord, flattenFunctions_prefixAddresses]
    rfl
  have hblock : ∀ (pre post : List (Str × List Str)) (key : Str) (body : List Str),
      functionBlocks (blocksOf fileLines) = pre ++ (key, body) :: post →
        mapGet? rawFunctions key
            = some { Address := (bodyLengths pre : Int), Content := body }
        ∧ shellcode.tail
            = streamOf instructions registers D rawFunctions pre
              ++ compileFunction instructions registers D rawFunctions body
              ++ streamOf instructions registers D rawFunctions post
        ∧ (streamOf instructions registers D rawFunctions pre).length = bodyLengths pre
        ∧ (compileFunction instructions registers D rawFunctions body).length = body.length
        ∧ ∀ (j : Nat) (line : Str), body[j]? = some line →
            shellcode.tail[bodyLengths pre + j]?
              = some (.slice (compileInstruction instructions registers D
                  rawFunctions line)) := by
    intro pre post key body hsplit
    have hkey : key ∉ pre.map Prod.fst := by
      rw [hsplit] at hnd
      simp only [List.map_append, List.map_cons] at hnd
      have := (List.nodup_append.mp hnd).2.2
      intro hm
      exact this hm (List.mem_cons_self _ _)
    have hcat : shellcode.tail
        = streamOf instructions registers D rawFunctions pre
          ++ compileFunction instructions registers D rawFunctions body
          ++ streamOf instructions registers D rawFunctions post := by
      rw [htail, hsplit, streamOf_append]
      simp [streamOf]
    refine ⟨?_, hcat, streamOf_length _ _ _ _ pre, compileFunction_length _ _ _ _ body, ?_⟩
    · rw [hfun, hsplit, mapGet?_prefixAddresses 0 pre post key body hkey]
      simp
    · intro j line hj
      have hjlt : j < body.length := by
        rcases Nat.lt_or_ge j body.length with hlt | hge
        · exact hlt
        · rw [List.getElem?_eq_none hge] at hj
          cases hj
      rw [hcat, List.append_assoc,
        List.getElem?_append_right (by rw [streamOf_length]; omega), streamOf_length,
        Nat.add_sub_cancel_left,
        List.getElem?_append_left (by rw [compileFunction_length]; exact hjlt)]
      exact compileFunction_getElem? _ _ _ _ body j line hj
  refine ⟨D, hd, htail, ?_, hblock, ?_⟩
  · rw [htail, streamOf_length]
  · intro e he line hline
    obtain ⟨key, sym⟩ := e
    rw [hfun] at he
    -- the entry is a function block of the text with its prefix address
    have hex : ∃ pre post body, functionBlocks (blocksOf fileLines)
        = pre ++ (key, body) :: post
          ∧ sym = { Address := (bodyLengths pre : Int), Content := body } := by
      have hgen : ∀ (fb : List (Str × List Str)) (start : Nat),
          (key, sym) ∈ prefixAddresses start fb →
            ∃ pre post body, fb = pre ++ (key, body) :: post
              ∧ sym = { Address := ((start + bodyLengths pre : Nat) : Int),
                        Content := body } := by
        intro fb
        induction fb with
        | nil => intro start hm; cases hm
        | cons b rest ih =>
          intro start hm
          obtain ⟨k₀, b₀⟩ := b
          simp only [prefixAddresses, List.mem_cons, Prod.mk.injEq] at hm
          rcases hm with ⟨hk, hs⟩ | hm
          · exact ⟨[], rest, b₀, by rw [hk]; rfl, by rw [hs]; simp [bodyLengths]⟩
          · obtain ⟨pre, post, body, hfb, hs⟩ := ih _ hm
            refine ⟨(k₀, b₀) :: pre, post, body, by rw [hfb]; rfl, ?_⟩
            rw [hs]
            simp only [bodyLengths, Nat.add_assoc]
      obtain ⟨pre, post, body, hfb, hs⟩ := hgen _ 0 he
      exact ⟨pre, post, body, hfb, by rw [hs]; simp⟩
    obtain ⟨pre, post, body, hfb, hs⟩ := hex
    have hb := (hblock pre post key body hfb).2.2.2.2 0 line (by
      subst hs
      simp only [Option.mem_def] at hline
      rw [← hline]
      cases body <;> simp)
    subst hs
    simpa using hb

/-- C19, evaluated on the code: address consistency fails in source order
too.  The text `sectionShadowsFunction` has one function, `_x`, with one body
line, and the function table has the one entry `_x`, so every visiting order
is the source order.  The line `section _x:` before it has advanced the
function counter by its own body, so `_x` is stored with `Address` 1 while its
block is the whole stream and starts at index 0.  In the text
`sectionBeforeFunction` the only function `_f` has one body line, but the
stream visited in source order has two elements: the body of the section `_s`
is assembled as an instruction. -/
theorem C19_section_body_shifts_the_addresses :
    getFileLines (some sectionShadowsFunction)
        = .ok ["section .text:".toList, "  _x".toList, "section _x:".toList,
            "  a=1".toList, "_x:".toList, "  mov r0 r1".toList]
    ∧ List.filter (fun line => HasPrefix line "_".toList)
          ["section .text:".toList, "  _x".toList, "section _x:".toList,
            "  a=1".toList, "_x:".toList, "  mov r0 r1".toList] = ["_x:".toList]
    ∧ extractRawSymbols ["section .text:".toList, "  _x".toList, "section _x:".toList,
          "  a=1".toList, "_x:".toList, "  mov r0 r1".toList]
        = .ok ([(".text".toList, ⟨0, ["_x".toList]⟩), ("_x".toList, ⟨1, ["a=1".toList]⟩)],
               [("_x".toList, ⟨1, ["mov r0 r1".toList]⟩)])
    ∧ CompileShellcode (some sectionShadowsFunction) exampleInstructions exampleRegisters id
        = .ok [.int64 1, .slice [.int 1, .int 0, .int 1]]
    ∧ ¬ AddressConsistent exampleInstructions exampleRegisters []
          [("_x".toList, ⟨1, ["mov r0 r1".toList]⟩)]
          [.slice [.int 1, .int 0, .int 1]]
    ∧ (getFileLines (some sectionBeforeFunction)).bind extractRawSymbols
        = .ok ([(".text".toList, ⟨0, ["_f".toList]⟩), ("_s".toList, ⟨1, ["a=1".toList]⟩)],
               [("_s".toList, ⟨0, ["a=1".toList]⟩),
                ("_f".toList, ⟨1, ["mov r0 r1".toList]⟩)])
    ∧ CompileShellcode (some sectionBeforeFunction) exampleInstructions exampleRegisters id
        = .ok [.int64 1, .slice [.int 0], .slice [.int 1, .int 0, .int 1]] := by
  refine ⟨by decide, by decide, by decide, by decide, ?_, by decide, by decide⟩
  intro h
  have h0 := h ("_x".toList, ⟨1, ["mov r0 r1".toList]⟩) (List.mem_cons_self _ _)
    "mov r0 r1".toList rfl
  revert h0
  decide

/-! ## Bare function references -/

/-- C20: an operand token that is no register name, starts with `_` and
contains no `+` leaves the instruction as it is and raises no error; every
other operand token appends exactly one element.  So the assembled
instruction has 1 + (number of operand tokens) − (number of bare function
references among them) elements. -/
theorem C20_bare_function_reference (instructions registers : List (Str × Int))
    (dataValues : List (Str × Str)) (rawFunctions : SymTable) (instr : Str) :
    (∀ tok acc, isBareReference registers tok = true →
        resolveOperand registers dataValues rawFunctions acc tok = acc)
    ∧ (∀ tok acc, isBareReference registers tok = false →
        ∃ op, resolveOperand registers dataValues rawFunctions acc tok = acc ++ [op])
    ∧ (compileInstruction instructions registers dataValues rawFunctions instr).length
        = 1 + (Split instr ' ').tail.length
          - ((Split instr ' ').tail.filter (isBareReference registers)).length
    ∧ ((Split instr ' ').tail.filter (isBareReference registers)).length
        ≤ (Split instr ' ').tail.length := by
  refine ⟨fun tok acc h => resolveOperand_bare _ _ _ acc tok h,
    fun tok acc h => resolveOperand_other _ _ _ acc tok h, ?_, List.length_filter_le _ _⟩
  unfold compileInstruction
  have h := resolveOperands_length registers dataValues rawFunctions
    [.int (mapRead 0 instructions ((Split instr ' ').headD []))] (Split instr ' ').tail
  simp only [List.length_cons, List.length_nil] at h
  simp only
  omega

/-- C20: the theorem applied to the line `mov _a r0 _b`, whose tokens `_a`
and `_b` are bare references: the instruction has 1 + 3 − 2 elements. -/
theorem C20_bare_function_reference_witness :
    (compileInstruction exampleInstructions exampleRegisters []
        [("_a".toList, ⟨0, []⟩)] "mov _a r0 _b".toList).length
      = 1 + (Split "mov _a r0 _b".toList ' ').tail.length
        - ((Split "mov _a r0 _b".toList ' ').tail.filter
            (isBareReference exampleRegisters)).length :=
  (C20_bare_function_reference exampleInstructions exampleRegisters []
    [("_a".toList, ⟨0, []⟩)] "mov _a r0 _b".toList).2.2.1

end Compiler
